import Mathlib

/-!
Shallow embedding of `src/services/CodebaseAnalyzer.ts` from the
sentry-mcp repository, together with proofs about its parsing,
resolution, context-window and discovery logic.

JavaScript regular expressions are embedded as a small backtracking
engine (`RE`, `allM`): the list of candidate matches is produced in
exactly the JS engine's priority order (leftmost match position first,
greedy quantifiers longest-first, lazy quantifiers shortest-first,
alternation left-to-right), and the first element is the match JS
returns.  `parseInt` applied to a `\d+` capture is embedded as the
exact digit-string value rounded to the nearest binary64 double
(`jsParseIntNat`), reproducing the double arithmetic `parseInt`
performs.  File-system reads are embedded
as a parameter `fs : String → Option String`, where `none` stands for
a missing or unreadable file (the code catches any read error and
continues, so the two are indistinguishable at this interface).
`path.join` is embedded as `/`-concatenation of its components.
-/

set_option exponentiation.threshold 1200

set_option maxRecDepth 4000

namespace CodebaseAnalyzer

/-- JS `\s` character class: ECMAScript WhiteSpace (TAB, VT, FF, SP,
NBSP, ZWNBSP and the Unicode Space_Separator code points) plus the
LineTerminators LF, CR, LS, PS. -/
def jsSpace (c : Char) : Bool :=
  c == ' ' || c == '\t' || c == '\n' || c == '\r' || c == '\x0b' || c == '\x0c' ||
  c == '\u00a0' || c == '\u1680' || ('\u2000' ≤ c && c ≤ '\u200a') ||
  c == '\u2028' || c == '\u2029' || c == '\u202f' || c == '\u205f' ||
  c == '\u3000' || c == '\ufeff'

/-- JS `\w` character class: `[A-Za-z0-9_]`. -/
def jsWord (c : Char) : Bool :=
  c.isAlphanum || c == '_'

/-- JS `.` (no `s` flag): any character except an ECMAScript
LineTerminator (LF, CR, LS U+2028, PS U+2029). -/
def notNl (c : Char) : Bool :=
  !(c == '\n' || c == '\r' || c == '\u2028' || c == '\u2029')

/-- Source: `[k, k-1, ..., 1]`: the order in which a greedy `+` quantifier
offers its consumption lengths. -/
def natsDown : Nat → List Nat
  | 0 => []
  | n + 1 => (n + 1) :: natsDown n

/-- Source: `[1, 2, ..., k]`: the order in which a lazy `+?` quantifier offers
its consumption lengths. -/
def natsUp (k : Nat) : List Nat :=
  (List.range k).map (· + 1)

/-- Length of the maximal prefix of `l` whose characters satisfy `p`. -/
def runLen (p : Char → Bool) : List Char → Nat
  | [] => 0
  | c :: t => if p c then runLen p t + 1 else 0

/-- JS `String.prototype.split` with a one-character separator:
`"".split(sep) = [""]`, a trailing separator contributes a trailing
empty segment. -/
def splitOnChar (sep : Char) : List Char → List (List Char)
  | [] => [[]]
  | c :: t =>
    if c = sep then [] :: splitOnChar sep t
    else
      match splitOnChar sep t with
      | s :: rest => (c :: s) :: rest
      | [] => [[c]]

/-- Source: `content.split('\n')` as used throughout the analyzer. -/
def splitLines (s : String) : List String :=
  (splitOnChar '\n' s.toList).map String.mk

/-- Source: `lines.length` of `content.split('\n')`: the analyzer's line count
of a file (`analyzeFile` and `analyzeFileForStackFrame`). -/
def lineCountOf (s : String) : Nat :=
  (splitLines s).length

/-- JS `String.prototype.trim`. -/
def jsTrim (s : String) : String :=
  String.mk (((s.toList.dropWhile jsSpace).reverse.dropWhile jsSpace).reverse)

/-- Source: `filename.replace(/^.*[\\\/]/, '')`: the greedy `.*` eats up to the
last `/` or `\`, so only the final path segment remains. -/
def lastSegment (s : String) : String :=
  String.mk (s.toList.foldl (fun acc c => if c = '/' ∨ c = '\\' then [] else acc ++ [c]) [])

/-- Exact mathematical value of a decimal digit string. -/
def natOfDigits (l : List Char) : Nat :=
  l.foldl (fun acc c => acc * 10 + (c.toNat - '0'.toNat)) 0

/-- Floor base-2 logarithm, fuelled so it is structurally recursive
and reduces; callers pass the argument itself as fuel, which always
suffices. -/
def log2F : Nat → Nat → Nat
  | 0, _ => 0
  | fuel + 1, n => if 2 ≤ n then log2F fuel (n / 2) + 1 else 0

/-- The nearest binary64 double of a natural number (round to nearest,
ties to even mantissa): exact up to `2^53`, above that rounded to a
multiple of `2^(e-52)` where `2^e ≤ n < 2^(e+1)`.  This is the value
the source's `parseInt` actually produces for a digit string. -/
def toDouble (n : Nat) : Nat :=
  if n ≤ 2 ^ 53 then n
  else
    let e := log2F n n
    let ulp := 2 ^ (e - 52)
    let q := n / ulp
    let r := n % ulp
    if 2 * r < ulp then q * ulp
    else if ulp < 2 * r then (q + 1) * ulp
    else if q % 2 = 0 then q * ulp else (q + 1) * ulp

/-- `parseInt` on a `\d+` capture: the exact digit value rounded to the
nearest double.  Results of at least `2^1024` overflow to `Infinity`,
modelled as the sentinel `2^1024` — it exceeds every possible line
count, so the downstream in-range check fails exactly as it would for
`Infinity`. -/
def jsParseIntNat (l : List Char) : Nat :=
  let v := toDouble (natOfDigits l)
  if 2 ^ 1024 ≤ v then 2 ^ 1024 else v

/-- Regular-expression abstract syntax, covering exactly the constructs
used by the analyzer's patterns.  Quantifiers over single-character
classes are primitive (`plusG`/`plusL`/`starG`/`starL`); `star` is the
general `(?:...)*` over a subexpression. -/
inductive RE where
  | eps
  | ch (p : Char → Bool)
  | cat (a b : RE)
  | alt (a b : RE)
  | opt (a : RE)
  | plusG (p : Char → Bool)
  | plusL (p : Char → Bool)
  | starG (p : Char → Bool)
  | starL (p : Char → Bool)
  | star (a : RE)

/-- Iterations of a `(?:...)*` subexpression whose single-iteration
matcher is `f`: greedily try one-or-more repetitions (each required to
consume at least one character, the JS engine's empty-match loop exit)
before zero repetitions.  `fuel` only bounds the recursion; callers
pass the string length, which one-character-minimum iterations can
never exhaust. -/
def starM (f : List Char → List (List String × List Char)) :
    Nat → List Char → List (List String × List Char)
  | 0, s => [([], s)]
  | fuel + 1, s =>
    (((f s).filter fun pr => pr.2.length < s.length).flatMap fun pr =>
      (starM f fuel pr.2).map fun qr => (pr.1 ++ qr.1, qr.2)) ++ [([], s)]

/-- All ways to match `r` against a prefix of `s`, as
`(captures, remaining suffix)` pairs, in JS backtracking priority
order. -/
def allM : RE → List Char → List (List String × List Char)
  | .eps, s => [([], s)]
  | .ch p, s =>
    match s with
    | [] => []
    | c :: t => if p c then [([], t)] else []
  | .cat a b, s =>
    (allM a s).flatMap fun pr =>
      (allM b pr.2).map fun qr => (pr.1 ++ qr.1, qr.2)
  | .alt a b, s => allM a s ++ allM b s
  | .opt a, s => allM a s ++ [([], s)]
  | .plusG p, s => (natsDown (runLen p s)).map fun n => ([], s.drop n)
  | .plusL p, s => (natsUp (runLen p s)).map fun n => ([], s.drop n)
  | .starG p, s => ((natsDown (runLen p s)).map fun n => ([], s.drop n)) ++ [([], s)]
  | .starL p, s => [([], s)] ++ ((natsUp (runLen p s)).map fun n => ([], s.drop n))
  | .star a, s => starM (allM a) s.length s

/-- A capture group: the matched substring is appended to the capture
list (all groups in the analyzer's patterns are non-nested, so this
yields JS group numbering). -/
def grpAllM (a : RE) (s : List Char) : List (List String × List Char) :=
  (allM a s).map fun pr =>
    (pr.1 ++ [String.mk (s.take (s.length - pr.2.length))], pr.2)

/-- Wrap `grp` into the AST by reusing `allM`: groups are a separate
constructor so the engine above stays quantifier-only. -/
inductive GRE where
  | re (r : RE)
  | grp (r : RE)
  | gcat (a b : GRE)

/-- Matching with capture groups, same priority order as `allM`. -/
def allG : GRE → List Char → List (List String × List Char)
  | .re r, s => allM r s
  | .grp r, s => grpAllM r s
  | .gcat a b, s =>
    (allG a s).flatMap fun pr =>
      (allG b pr.2).map fun qr => (pr.1 ++ qr.1, qr.2)

/-- Leftmost-first search: the JS `string.match(re)` strategy of trying
each start position in turn and taking the backtracking engine's first
success.  Returns the captures and the suffix following the match. -/
def reFindFrom (g : GRE) : List Char → Option (List String × List Char)
  | [] => (allG g []).head?
  | c :: t =>
    match (allG g (c :: t)).head? with
    | some pr => some pr
    | none => reFindFrom g t

/-- Source: `string.match(re)`: the captures of the leftmost match, if any. -/
def reFind (g : GRE) (s : List Char) : Option (List String) :=
  (reFindFrom g s).map Prod.fst

/-- Successive matches of a `/g` regex via repeated `exec`: each search
resumes after the end of the previous match. -/
def reFindAll (g : GRE) : Nat → List Char → List (List String)
  | 0, _ => []
  | fuel + 1, s =>
    match reFindFrom g s with
    | none => []
    | some (caps, rest) => caps :: reFindAll g fuel rest

/-- Literal character sequence. -/
def lits (s : String) : RE :=
  s.toList.foldr (fun c r => RE.cat (RE.ch (fun x => x == c)) r) RE.eps

/-- Sequence of group-level regex pieces. -/
def gseq (l : List GRE) : GRE :=
  l.foldr GRE.gcat (GRE.re RE.eps)

/-- One parsed stack-trace frame (`StackTraceFrame` in the source). -/
structure StackTraceFrame where
  filename : String
  function : String
  line : Nat
  column : Option Nat
deriving DecidableEq, Repr

/-- Ruby continuation form: ``from\s+(.+?):(\d+):in\s+`(.+?)'``. -/
def pat1 : GRE :=
  gseq [.re (lits "from"), .re (.plusG jsSpace), .grp (.plusL notNl), .re (.ch (· == ':')),
        .grp (.plusG Char.isDigit), .re (.ch (· == ':')), .re (lits "in"),
        .re (.plusG jsSpace), .re (.ch (· == '\x60')), .grp (.plusL notNl),
        .re (.ch (· == '\x27'))]

/-- Ruby frame form: ``(.+?):(\d+):in\s+`(.+?)'``. -/
def pat2 : GRE :=
  gseq [.grp (.plusL notNl), .re (.ch (· == ':')), .grp (.plusG Char.isDigit),
        .re (.ch (· == ':')), .re (lits "in"), .re (.plusG jsSpace),
        .re (.ch (· == '\x60')), .grp (.plusL notNl), .re (.ch (· == '\x27'))]

/-- Ruby bare form: `(.+\.rb):(\d+)`. -/
def pat3 : GRE :=
  gseq [.grp (.cat (.plusG notNl) (lits ".rb")), .re (.ch (· == ':')),
        .grp (.plusG Char.isDigit)]

/-- JavaScript/TypeScript form: `at\s+(.+?)\s+\((.+?):(\d+):(\d+)\)`. -/
def pat4 : GRE :=
  gseq [.re (lits "at"), .re (.plusG jsSpace), .grp (.plusL notNl), .re (.plusG jsSpace),
        .re (.ch (· == '(')), .grp (.plusL notNl), .re (.ch (· == ':')),
        .grp (.plusG Char.isDigit), .re (.ch (· == ':')), .grp (.plusG Char.isDigit),
        .re (.ch (· == ')'))]

/-- Python form: `File\s+"(.+?)",\s+line\s+(\d+),\s+in\s+(.+)`. -/
def pat5 : GRE :=
  gseq [.re (lits "File"), .re (.plusG jsSpace), .re (.ch (· == '"')), .grp (.plusL notNl),
        .re (.ch (· == '"')), .re (.ch (· == ',')), .re (.plusG jsSpace), .re (lits "line"),
        .re (.plusG jsSpace), .grp (.plusG Char.isDigit), .re (.ch (· == ',')),
        .re (.plusG jsSpace), .re (lits "in"), .re (.plusG jsSpace), .grp (.plusG notNl)]

/-- Java form: `at\s+(.+?)\((.+?):(\d+)\)`. -/
def pat6 : GRE :=
  gseq [.re (lits "at"), .re (.plusG jsSpace), .grp (.plusL notNl), .re (.ch (· == '(')),
        .grp (.plusL notNl), .re (.ch (· == ':')), .grp (.plusG Char.isDigit),
        .re (.ch (· == ')'))]

/-- Generic fallback: `(\w+)\s+(.+?):(\d+)`. -/
def pat7 : GRE :=
  gseq [.grp (.plusG jsWord), .re (.plusG jsSpace), .grp (.plusL notNl),
        .re (.ch (· == ':')), .grp (.plusG Char.isDigit)]

/-- One line of `parseStackTrace`: try the seven recognizers in order,
build the frame from the first match (dispatch branches as in the
source; the `match.length >= 4` branch also catches the generic
pattern, with the same resulting assignment).  The filename is
stripped to its final path segment.  Returns `none` when no pattern
matches (the line contributes nothing). -/
def parseLine (line : String) : Option StackTraceFrame :=
  let s := line.toList
  match reFind pat1 s with
  | some (file :: num :: fn :: _) =>
    some { filename := lastSegment file, function := fn, line := jsParseIntNat num.toList, column := none }
  | some _ => none
  | none =>
  match reFind pat2 s with
  | some (file :: num :: fn :: _) =>
    some { filename := lastSegment file, function := fn, line := jsParseIntNat num.toList, column := none }
  | some _ => none
  | none =>
  match reFind pat3 s with
  | some (file :: num :: _) =>
    some { filename := lastSegment file, function := "<unknown>", line := jsParseIntNat num.toList, column := none }
  | some _ => none
  | none =>
  match reFind pat4 s with
  | some (fn :: file :: num :: col :: _) =>
    some { filename := lastSegment file, function := fn, line := jsParseIntNat num.toList,
           column := some (jsParseIntNat col.toList) }
  | some _ => none
  | none =>
  match reFind pat5 s with
  | some (file :: num :: fn :: _) =>
    some { filename := lastSegment file, function := fn, line := jsParseIntNat num.toList, column := none }
  | some _ => none
  | none =>
  match reFind pat6 s with
  | some (fn :: file :: num :: _) =>
    some { filename := lastSegment file, function := fn, line := jsParseIntNat num.toList, column := none }
  | some _ => none
  | none =>
  match reFind pat7 s with
  | some (fn :: file :: num :: _) =>
    some { filename := lastSegment file, function := fn, line := jsParseIntNat num.toList, column := none }
  | some _ => none
  | none => none

/-- Source: `parseStackTrace`: split on newlines, collect the frames of the
recognizable lines in order; unrecognizable lines are skipped. -/
def parseStackTrace (stackTrace : String) : List StackTraceFrame :=
  (splitLines stackTrace).filterMap parseLine

/-- Source: `['"]` character class. -/
def quoteCls (c : Char) : Bool :=
  c == '\x27' || c == '"'

/-- Source: `[^'"]` character class. -/
def notQuote (c : Char) : Bool :=
  !(quoteCls c)

/-- Source: `[!?]` character class. -/
def bangQ (c : Char) : Bool :=
  c == '!' || c == '?'

/-- Source: `[^)]` character class. -/
def notRParen (c : Char) : Bool :=
  !(c == ')')

/-- Source: `[A-Z]` character class. -/
def upperCls (c : Char) : Bool :=
  c.isUpper

/-- Source: `[^\s]` character class. -/
def notSpace (c : Char) : Bool :=
  !(jsSpace c)

/-- Source: `[^\s;]` character class. -/
def notSpaceSemi (c : Char) : Bool :=
  !(jsSpace c || c == ';')

/-- Source: `def\s+(?:self\.)?(\w+[!?]?)` (Ruby method definition). -/
def dp1 : GRE :=
  gseq [.re (lits "def"), .re (.plusG jsSpace), .re (.opt (lits "self.")),
        .grp (.cat (.plusG jsWord) (.opt (.ch bangQ)))]

/-- Source: `def\s+self\.(\w+[!?]?)` (Ruby class method definition). -/
def dp2 : GRE :=
  gseq [.re (lits "def"), .re (.plusG jsSpace), .re (lits "self."),
        .grp (.cat (.plusG jsWord) (.opt (.ch bangQ)))]

/-- Source: `(\w+)\s*=\s*(?:lambda|proc)\s*{` (Ruby lambda/proc). -/
def dp3 : GRE :=
  gseq [.grp (.plusG jsWord), .re (.starG jsSpace), .re (.ch (· == '=')),
        .re (.starG jsSpace), .re (.alt (lits "lambda") (lits "proc")),
        .re (.starG jsSpace), .re (.ch (· == '\x7b'))]

/-- Source: `(\w+)\s*=\s*->\s*\(` (Ruby stabby lambda). -/
def dp4 : GRE :=
  gseq [.grp (.plusG jsWord), .re (.starG jsSpace), .re (.ch (· == '=')),
        .re (.starG jsSpace), .re (lits "->"), .re (.starG jsSpace), .re (.ch (· == '('))]

/-- Source: `function\s+(\w+)`. -/
def dp5 : GRE :=
  gseq [.re (lits "function"), .re (.plusG jsSpace), .grp (.plusG jsWord)]

/-- Source: `(\w+)\s*:\s*function`. -/
def dp6 : GRE :=
  gseq [.grp (.plusG jsWord), .re (.starG jsSpace), .re (.ch (· == ':')),
        .re (.starG jsSpace), .re (lits "function")]

/-- Source: `(\w+)\s*\([^)]*\)\s*{`. -/
def dp7 : GRE :=
  gseq [.grp (.plusG jsWord), .re (.starG jsSpace), .re (.ch (· == '(')),
        .re (.starG notRParen), .re (.ch (· == ')')), .re (.starG jsSpace),
        .re (.ch (· == '\x7b'))]

/-- Source: `const\s+(\w+)\s*=\s*\([^)]*\)\s*=>`. -/
def dp8 : GRE :=
  gseq [.re (lits "const"), .re (.plusG jsSpace), .grp (.plusG jsWord),
        .re (.starG jsSpace), .re (.ch (· == '=')), .re (.starG jsSpace),
        .re (.ch (· == '(')), .re (.starG notRParen), .re (.ch (· == ')')),
        .re (.starG jsSpace), .re (lits "=>")]

/-- Source: `(\w+)\s*=\s*\([^)]*\)\s*=>`. -/
def dp9 : GRE :=
  gseq [.grp (.plusG jsWord), .re (.starG jsSpace), .re (.ch (· == '=')),
        .re (.starG jsSpace), .re (.ch (· == '(')), .re (.starG notRParen),
        .re (.ch (· == ')')), .re (.starG jsSpace), .re (lits "=>")]

/-- Source: `def\s+(\w+)` (Python). -/
def dp10 : GRE :=
  gseq [.re (lits "def"), .re (.plusG jsSpace), .grp (.plusG jsWord)]

/-- Source: `(?:public|private|protected)?\s*(?:static)?\s*\w+\s+(\w+)\s*\(` (Java). -/
def dp11 : GRE :=
  gseq [.re (.opt (.alt (lits "public") (.alt (lits "private") (lits "protected")))),
        .re (.starG jsSpace), .re (.opt (lits "static")), .re (.starG jsSpace),
        .re (.plusG jsWord), .re (.plusG jsSpace), .grp (.plusG jsWord),
        .re (.starG jsSpace), .re (.ch (· == '('))]

/-- The declaration recognizers of `findContainingFunction`, in source
order. -/
def declPatterns : List GRE :=
  [dp1, dp2, dp3, dp4, dp5, dp6, dp7, dp8, dp9, dp10, dp11]

/-- One line's test against the declaration recognizers: the line is
trimmed, the patterns are tried in order, and the first match's first
capture (`match[1]`) is returned. -/
def declMatch (line : String) : Option String :=
  (declPatterns.findSome? fun p => reFind p (jsTrim line).toList).bind List.head?

/-- Source: `findContainingFunction`: scan backward from the target line's own
index down to index 0; the first line matching any declaration
recognizer yields its captured name; `none` when no line matches
(the code returns `null`, and the caller then omits the function
context). -/
def findContainingFunction (lines : List String) : Nat → Option String
  | 0 => declMatch (lines.getD 0 "")
  | t + 1 =>
    match declMatch (lines.getD (t + 1) "") with
    | some name => some name
    | none => findContainingFunction lines t

/-- Role of a context-window line relative to the target line. -/
inductive CtxRole where
  | before
  | target
  | after
deriving DecidableEq, Repr

/-- One element of a context window (`relevantLines` entry shape). -/
structure ContextLine where
  lineNumber : Nat
  content : String
  context : CtxRole
deriving DecidableEq, Repr

/-- Source: `getContextLines(lines, targetLine, contextSize)`: `targetLine` is a
0-based index; `start = max(0, targetLine - contextSize)` (the `Nat`
subtraction implements the `max(0, ·)` clamp),
`end = min(lines.length, targetLine + contextSize + 1)`; each index in
`[start, end)` contributes its 1-based line number, its content and its
role. -/
def getContextLines (lines : List String) (targetLine contextSize : Nat) : List ContextLine :=
  let start := targetLine - contextSize
  let stop := min lines.length (targetLine + contextSize + 1)
  (List.range' start (stop - start)).map fun i =>
    { lineNumber := i + 1
      content := lines.getD i ""
      context :=
        if i < targetLine then CtxRole.before
        else if i = targetLine then CtxRole.target
        else CtxRole.after }

/-- Source: `def\s+(?:self\.)?(\w+[!?]?)` (global). -/
def fp1 : GRE := dp1

/-- Source: `(\w+)\s*=\s*(?:lambda|proc)\s*{` (global). -/
def fp2 : GRE := dp3

/-- Source: `(\w+)\s*=\s*->\s*\(` (global). -/
def fp3 : GRE := dp4

/-- Source: `function\s+(\w+)` (global). -/
def fp4 : GRE := dp5

/-- Source: `(\w+)\s*:\s*function` (global). -/
def fp5 : GRE := dp6

/-- Source: `const\s+(\w+)\s*=\s*\([^)]*\)\s*=>` (global). -/
def fp6 : GRE := dp8

/-- Source: `def\s+(\w+)` (global, Python). -/
def fp7 : GRE := dp10

/-- Java method pattern (global). -/
def fp8 : GRE := dp11

/-- The `extractFunctions` recognizers, in source order. -/
def funcPatterns : List GRE :=
  [fp1, fp2, fp3, fp4, fp5, fp6, fp7, fp8]

/-- All `match[1]` captures of successive `exec` calls of a `/g`
pattern on a string. -/
def collectMatches (g : GRE) (s : List Char) : List String :=
  (reFindAll g (s.length + 1) s).filterMap List.head?

/-- Source: `extractFunctions`: per line (trimmed), per pattern, collect every
match's first capture; deduplicate at the end keeping first
occurrences (`[...new Set(functions)]`). -/
def extractFunctions (content : String) : List String :=
  ((splitLines content).flatMap fun line =>
    funcPatterns.flatMap fun p => collectMatches p (jsTrim line).toList).eraseDups

/-- Source: `require\s+['"]([^'"]+)['"]`. -/
def ip1 : GRE :=
  gseq [.re (lits "require"), .re (.plusG jsSpace), .re (.ch quoteCls),
        .grp (.plusG notQuote), .re (.ch quoteCls)]

/-- Source: `require_relative\s+['"]([^'"]+)['"]`. -/
def ip2 : GRE :=
  gseq [.re (lits "require_relative"), .re (.plusG jsSpace), .re (.ch quoteCls),
        .grp (.plusG notQuote), .re (.ch quoteCls)]

/-- Source: `load\s+['"]([^'"]+)['"]`. -/
def ip3 : GRE :=
  gseq [.re (lits "load"), .re (.plusG jsSpace), .re (.ch quoteCls),
        .grp (.plusG notQuote), .re (.ch quoteCls)]

/-- Source: `include\s+([A-Z]\w*(?:::[A-Z]\w*)*)`. -/
def ip4 : GRE :=
  gseq [.re (lits "include"), .re (.plusG jsSpace),
        .grp (.cat (.ch upperCls) (.cat (.starG jsWord)
          (.star (.cat (lits "::") (.cat (.ch upperCls) (.starG jsWord))))))]

/-- Source: `extend\s+([A-Z]\w*(?:::[A-Z]\w*)*)`. -/
def ip5 : GRE :=
  gseq [.re (lits "extend"), .re (.plusG jsSpace),
        .grp (.cat (.ch upperCls) (.cat (.starG jsWord)
          (.star (.cat (lits "::") (.cat (.ch upperCls) (.starG jsWord))))))]

/-- Source: `gem\s+['"]([^'"]+)['"]`. -/
def ip6 : GRE :=
  gseq [.re (lits "gem"), .re (.plusG jsSpace), .re (.ch quoteCls),
        .grp (.plusG notQuote), .re (.ch quoteCls)]

/-- Source: `import\s+.*?\s+from\s+['"]([^'"]+)['"]`. -/
def ip7 : GRE :=
  gseq [.re (lits "import"), .re (.plusG jsSpace), .re (.starL notNl),
        .re (.plusG jsSpace), .re (lits "from"), .re (.plusG jsSpace),
        .re (.ch quoteCls), .grp (.plusG notQuote), .re (.ch quoteCls)]

/-- Source: `import\s+['"]([^'"]+)['"]`. -/
def ip8 : GRE :=
  gseq [.re (lits "import"), .re (.plusG jsSpace), .re (.ch quoteCls),
        .grp (.plusG notQuote), .re (.ch quoteCls)]

/-- Source: `require\s*\(\s*['"]([^'"]+)['"]\s*\)`. -/
def ip9 : GRE :=
  gseq [.re (lits "require"), .re (.starG jsSpace), .re (.ch (· == '(')),
        .re (.starG jsSpace), .re (.ch quoteCls), .grp (.plusG notQuote),
        .re (.ch quoteCls), .re (.starG jsSpace), .re (.ch (· == ')'))]

/-- Source: `from\s+([^\s]+)\s+import` (Python). -/
def ip10 : GRE :=
  gseq [.re (lits "from"), .re (.plusG jsSpace), .grp (.plusG notSpace),
        .re (.plusG jsSpace), .re (lits "import")]

/-- Source: `import\s+([^\s;]+)` (Java). -/
def ip11 : GRE :=
  gseq [.re (lits "import"), .re (.plusG jsSpace), .grp (.plusG notSpaceSemi)]

/-- The `extractImports` recognizers, in source order. -/
def importPatterns : List GRE :=
  [ip1, ip2, ip3, ip4, ip5, ip6, ip7, ip8, ip9, ip10, ip11]

/-- Source: `extractImports`: per line (trimmed), per pattern, collect every
match's first capture; deduplicate at the end keeping first
occurrences. -/
def extractImports (content : String) : List String :=
  ((splitLines content).flatMap fun line =>
    importPatterns.flatMap fun p => collectMatches p (jsTrim line).toList).eraseDups

/-- Per-file extracted facts (`FileAnalysis` in the source;
`relevantLines` is declared optional there and never populated by this
service, embedded as a constant `none`). -/
structure FileAnalysis where
  path : String
  content : String
  lineCount : Nat
  functions : List String
  imports : List String
  relevantLines : Option (List ContextLine) := none

/-- Source: `path.join(a, b)`, embedded as `/`-concatenation. -/
def pjoin (a b : String) : String :=
  a ++ "/" ++ b

/-- Source: `analyzeFile`: read the file, split into lines, extract; any read
error yields `null` (here: a missing binding in `fs`). -/
def analyzeFile (fs : String → Option String) (filePath : String) : Option FileAnalysis :=
  (fs filePath).map fun content =>
    { path := filePath
      content := content
      lineCount := lineCountOf content
      functions := extractFunctions content
      imports := extractImports content }

/-- Source: `loadGitignore`: read `root/.gitignore` and hand its text to the
external `ignore` package; a read failure leaves the rule set `null`.
The package's pattern matcher is outside this repository and is
embedded as the parameter `ignoreOf`, mapping the ignore-file text to
an `isIgnored` predicate on relative paths. -/
def loadGitignore (fs : String → Option String) (ignoreOf : String → String → Bool)
    (root : String) : Option (String → Bool) :=
  (fs (pjoin root ".gitignore")).map ignoreOf

/-- Source: `filterIgnoredFiles`: with no loaded rule set, keep everything;
otherwise keep exactly the non-ignored files (the `ignore` package's
`filter`). -/
def filterIgnoredFiles (rules : Option (String → Bool)) (files : List String) : List String :=
  match rules with
  | none => files
  | some isIgnored => files.filter fun f => !(isIgnored f)

/-- Source: `analyzeCodebase` (discovery mode): the glob enumeration (extension
allow-list and fixed directory exclusions) happens in the external
`glob` library and is embedded as the input list `files` (paths
relative to `root`, in enumeration order).  Ignore filtering is
applied first, then the hard `slice(0, 50)` cap, then per-file
analysis; a file whose analysis fails is skipped
(`try/catch` + `null` check → `filterMap`). -/
def analyzeCodebase (fs : String → Option String) (ignoreOf : String → String → Bool)
    (files : List String) (root : String) : List FileAnalysis :=
  let rules := loadGitignore fs ignoreOf root
  ((filterIgnoredFiles rules files).take 50).filterMap fun f => analyzeFile fs (pjoin root f)

/-- The data embedded in the per-frame markdown block that
`analyzeFileForStackFrame` renders on success.  `path` records which
candidate's content produced the block (implicit in the code as the
file read in the successful loop iteration; the markdown itself shows
only `frame.filename`). -/
structure FrameContext where
  path : String
  filename : String
  line : Nat
  contextLines : List ContextLine
  containingFunction : Option String
deriving DecidableEq, Repr

/-- Outcome of `analyzeFileForStackFrame`: a context block, or the
"File not found: ... - May be from external library or different path
structure" message naming the frame's filename. -/
inductive FrameResult where
  | found (ctx : FrameContext)
  | notFound (filename : String)
deriving DecidableEq, Repr

/-- The resolved path of a frame result, when a context block was
produced. -/
def FrameResult.pathOf : FrameResult → Option String
  | .found ctx => some ctx.path
  | .notFound _ => none

/-- The successful branch of the candidate loop: context window of
radius 3 around the 0-based target index, plus the backward
function-scan. -/
def buildCtx (p content : String) (frame : StackTraceFrame) : FrameContext :=
  let lines := splitLines content
  { path := p
    filename := frame.filename
    line := frame.line
    contextLines := getContextLines lines (frame.line - 1) 3
    containingFunction := findContainingFunction lines (frame.line - 1) }

/-- The candidate loop of `analyzeFileForStackFrame`: read each
candidate in order (a read failure means "try next path"); on a
successful read, the 0-based `targetLine = frame.line - 1` must
satisfy `0 ≤ targetLine < lines.length` — i.e.
`1 ≤ frame.line ≤ lines.length` — otherwise the loop also continues
with the next candidate. -/
def frameLoop (fs : String → Option String) (frame : StackTraceFrame) :
    List String → FrameResult
  | [] => .notFound frame.filename
  | p :: rest =>
    match fs p with
    | none => frameLoop fs frame rest
    | some content =>
      if 1 ≤ frame.line ∧ frame.line ≤ (splitLines content).length then
        .found (buildCtx p content frame)
      else frameLoop fs frame rest

/-- The fixed candidate order `possiblePaths`:
`root/filename`, `root/src/filename`, `root/app/filename`. -/
def candidatePaths (root name : String) : List String :=
  [pjoin root name, pjoin (pjoin root "src") name, pjoin (pjoin root "app") name]

/-- Source: `analyzeFileForStackFrame`. -/
def analyzeFileForStackFrame (fs : String → Option String) (frame : StackTraceFrame)
    (root : String) : FrameResult :=
  frameLoop fs frame (candidatePaths root frame.filename)

/-- Outcome of `analyzeStackTrace`: either the "Could not parse stack
trace" message, or a report listing all parsed frames plus the
per-frame outcome for the first five. -/
inductive AnalyzeResult where
  | couldNotParse
  | report (frames : List StackTraceFrame) (frameResults : List FrameResult)
deriving DecidableEq, Repr

/-- Source: `analyzeStackTrace`: zero frames is the distinct "could not parse"
outcome, not an exception; otherwise the top five frames each get an
independent `analyzeFileForStackFrame` outcome (every outcome string,
including the not-found message, is appended to the report). -/
def analyzeStackTrace (fs : String → Option String) (stackTrace root : String) :
    AnalyzeResult :=
  let frames := parseStackTrace stackTrace
  if frames.length = 0 then .couldNotParse
  else .report frames ((frames.take 5).map fun f => analyzeFileForStackFrame fs f root)

/-- Modelled from the spec (§4.2, resolution mode), for comparison with
the code: "tries an ordered list of candidate join points:
`rootPath/filename`, `rootPath/src/filename`, `rootPath/app/filename`,
returning the first that exists and is readable, or an absent result
if none match."  Note the spec's resolution does not look at the
frame's line number. -/
def specResolve (fs : String → Option String) (root name : String) : Option String :=
  (candidatePaths root name).find? fun p => (fs p).isSome

/-! ## Verification-level definitions -/

/-- A candidate path resolves a frame when its file is readable and the
frame's 1-based line is within `[1, lineCount]` of that content. -/
def resolvesAt (fs : String → Option String) (frame : StackTraceFrame) (p : String) : Prop :=
  ∃ c, fs p = some c ∧ 1 ≤ frame.line ∧ frame.line ≤ lineCountOf c

/-- File system for the C1 counterexample: `r1/a.rb` exists with 2
lines, `r1/src/a.rb` exists with 6 lines. -/
def fsC1 : String → Option String := fun p =>
  if p = "r1/a.rb" then some "x1\nx2"
  else if p = "r1/src/a.rb" then some "y1\ny2\ny3\ny4\ny5\ny6" else none

/-- Frame targeting line 5 of `a.rb`. -/
def frameC1 : StackTraceFrame :=
  { filename := "a.rb", function := "m", line := 5, column := none }

/-- File system for the C2 counterexample: `r2/b.rb` exists with 1
line, `r2/src/b.rb` exists with 12 lines. -/
def fsC2 : String → Option String := fun p =>
  if p = "r2/b.rb" then some "x"
  else if p = "r2/src/b.rb" then some "a1\na2\na3\na4\na5\na6\na7\na8\na9\na10\na11\na12"
  else none

/-- Frame targeting line 7 of `b.rb`. -/
def frameC2 : StackTraceFrame :=
  { filename := "b.rb", function := "m", line := 7, column := none }

/-- File system for the C9 witness: `r9/c.rb` exists with 2 lines,
`r9/src/c.rb` exists with 5 lines. -/
def fsC9 : String → Option String := fun p =>
  if p = "r9/c.rb" then some "u1\nu2"
  else if p = "r9/src/c.rb" then some "v1\nv2\nv3\nv4\nv5" else none

/-- Frame targeting line 4 of `c.rb`. -/
def frameC9 : StackTraceFrame :=
  { filename := "c.rb", function := "m", line := 4, column := none }

/-- File system whose every file has a single line (for the C1
witness). -/
def fsW1 : String → Option String := fun _ => some "w1"

/-- Frame targeting line 9 (out of range of every `fsW1` file). -/
def frameW1 : StackTraceFrame :=
  { filename := "a.rb", function := "m", line := 9, column := none }

/-- File system for the C10 witness: `w/a.rb` holds `"x\n"`. -/
def fsW10 : String → Option String := fun p =>
  if p = "w/a.rb" then some "x\n" else none

/-- Frame targeting line 2 of `a.rb` (the phantom trailing line of
`"x\n"`). -/
def frameW10 : StackTraceFrame :=
  { filename := "a.rb", function := "m", line := 2, column := none }

/-- No general `(?:...)*` subexpression (the analyzer's trace-line
patterns are all star-free; `star` occurs only inside two import
recognizers, which no claim concerns). -/
def noStarR : RE → Bool
  | .eps => true
  | .ch _ => true
  | .cat a b => noStarR a && noStarR b
  | .alt a b => noStarR a && noStarR b
  | .opt a => noStarR a
  | .plusG _ => true
  | .plusL _ => true
  | .starG _ => true
  | .starL _ => true
  | .star _ => false

/-- An over-approximating character class: every character a match of
the expression consumes satisfies it. -/
def consPredR : RE → Char → Bool
  | .eps => fun _ => false
  | .ch p => p
  | .cat a b => fun c => consPredR a c || consPredR b c
  | .alt a b => fun c => consPredR a c || consPredR b c
  | .opt a => consPredR a
  | .plusG p => p
  | .plusL p => p
  | .starG p => p
  | .starL p => p
  | .star a => consPredR a

/-- Lower bound on the number of characters any match consumes. -/
def minLenR : RE → Nat
  | .eps => 0
  | .ch _ => 1
  | .cat a b => minLenR a + minLenR b
  | .alt a b => min (minLenR a) (minLenR b)
  | .opt _ => 0
  | .plusG _ => 1
  | .plusL _ => 1
  | .starG _ => 0
  | .starL _ => 0
  | .star _ => 0

/-- Star-freedom at the group level. -/
def noStarG : GRE → Bool
  | .re r => noStarR r
  | .grp r => noStarR r
  | .gcat a b => noStarG a && noStarG b

/-- Number of capture groups. -/
def numGroups : GRE → Nat
  | .re _ => 0
  | .grp _ => 1
  | .gcat a b => numGroups a + numGroups b

/-- Per capture group, an over-approximating class of its characters. -/
def groupPreds : GRE → List (Char → Bool)
  | .re _ => []
  | .grp r => [consPredR r]
  | .gcat a b => groupPreds a ++ groupPreds b

/-- Per capture group, a lower bound on its length. -/
def groupMins : GRE → List Nat
  | .re _ => []
  | .grp r => [minLenR r]
  | .gcat a b => groupMins a ++ groupMins b

/-- Source: `a` occurs contiguously inside `b`. -/
def SubSeg (a b : List Char) : Prop :=
  ∃ u v, b = u ++ a ++ v

/-- The seven trace-line recognizers, in the source's dispatch order. -/
def tracePatterns : List GRE :=
  [pat1, pat2, pat3, pat4, pat5, pat6, pat7]

/-- The frame the source builds from the `i`-th recognizer's capture
list, mirroring the per-branch record assignments of `parseLine`. -/
def frameOfMatch : Nat → List String → Option StackTraceFrame
  | 0, file :: num :: fn :: _ =>
    some { filename := lastSegment file, function := fn, line := jsParseIntNat num.toList, column := none }
  | 1, file :: num :: fn :: _ =>
    some { filename := lastSegment file, function := fn, line := jsParseIntNat num.toList, column := none }
  | 2, file :: num :: _ =>
    some { filename := lastSegment file, function := "<unknown>", line := jsParseIntNat num.toList, column := none }
  | 3, fn :: file :: num :: col :: _ =>
    some { filename := lastSegment file, function := fn, line := jsParseIntNat num.toList, column := some (jsParseIntNat col.toList) }
  | 4, file :: num :: fn :: _ =>
    some { filename := lastSegment file, function := fn, line := jsParseIntNat num.toList, column := none }
  | 5, fn :: file :: num :: _ =>
    some { filename := lastSegment file, function := fn, line := jsParseIntNat num.toList, column := none }
  | 6, fn :: file :: num :: _ =>
    some { filename := lastSegment file, function := fn, line := jsParseIntNat num.toList, column := none }
  | _, _ => none

/-- Index, in the `i`-th recognizer's capture list, of the path whose
final segment becomes the filename. -/
def pathIdxOf : Nat → Nat
  | 3 => 1
  | 5 => 1
  | 6 => 1
  | _ => 0

/-- Index, in the `i`-th recognizer's capture list, of the digit string
fed to `parseInt` for the line number. -/
def lineIdxOf : Nat → Nat
  | 3 => 2
  | 5 => 2
  | 6 => 2
  | _ => 1

/-! ## Lemmas and claim theorems -/

/-! ### Utility lemmas about the line splitter -/

theorem splitOnChar_ne_nil (sep : Char) (l : List Char) : splitOnChar sep l ≠ [] := by
  induction l with
  | nil => simp [splitOnChar]
  | cons c t ih =>
    simp only [splitOnChar]
    by_cases h : c = sep
    · simp [h]
    · simp only [if_neg h]
      cases hs : splitOnChar sep t with
      | nil => simp
      | cons a b => simp

theorem length_splitOnChar (sep : Char) (l : List Char) :
    (splitOnChar sep l).length = l.count sep + 1 := by
  induction l with
  | nil => simp [splitOnChar]
  | cons c t ih =>
    by_cases h : c = sep
    · simp [splitOnChar, h, ih, List.count_cons]
    · simp only [splitOnChar, if_neg h]
      cases hs : splitOnChar sep t with
      | nil => exact absurd hs (splitOnChar_ne_nil _ _)
      | cons a b =>
        rw [hs] at ih
        simp only [List.length_cons] at ih ⊢
        have : (c == sep) = false := by simp [h]
        simp [List.count_cons, this, ← ih]

theorem splitOnChar_append_sep (sep : Char) (t : List Char) :
    splitOnChar sep (t ++ [sep]) = splitOnChar sep t ++ [[]] := by
  induction t with
  | nil => simp [splitOnChar]
  | cons c t ih =>
    by_cases h : c = sep
    · simp [splitOnChar, h, ih]
    · cases hs : splitOnChar sep t with
      | nil => exact absurd hs (splitOnChar_ne_nil _ _)
      | cons a b => simp [List.cons_append, splitOnChar, if_neg h, ih, hs]

theorem toList_mk (l : List Char) : (String.mk l).toList = l := rfl

theorem lineCountOf_eq_count (s : String) : lineCountOf s = s.toList.count '\n' + 1 := by
  simp [lineCountOf, splitLines, length_splitOnChar]

theorem lineCountOf_pos (s : String) : 1 ≤ lineCountOf s := by
  simp [lineCountOf_eq_count]

theorem splitLines_length (s : String) : (splitLines s).length = lineCountOf s := rfl

theorem splitLines_getLast_sep (t : List Char) :
    (splitLines (String.mk (t ++ ['\n']))).getLast? = some "" := by
  simp only [splitLines, toList_mk, splitOnChar_append_sep, List.getLast?_map]
  simp

/-! ### The candidate-resolution loop -/

theorem frameLoop_eq_notFound_iff (fs : String → Option String) (frame : StackTraceFrame)
    (ps : List String) :
    frameLoop fs frame ps = .notFound frame.filename ↔ ∀ p ∈ ps, ¬resolvesAt fs frame p := by
  induction ps with
  | nil => simp [frameLoop]
  | cons p rest ih =>
    simp only [frameLoop]
    cases hp : fs p with
    | none =>
      rw [ih]
      constructor
      · rintro h q hq
        rcases List.mem_cons.1 hq with rfl | hq
        · rintro ⟨c, hc, -⟩
          rw [hp] at hc
          cases hc
        · exact h q hq
      · intro h q hq
        exact h q (List.mem_cons_of_mem _ hq)
    | some c =>
      by_cases hg : 1 ≤ frame.line ∧ frame.line ≤ (splitLines c).length
      · simp only [if_pos hg]
        constructor
        · intro h
          cases h
        · intro h
          exact absurd ⟨c, hp, hg⟩ (h p (List.mem_cons_self p rest))
      · simp only [if_neg hg]
        rw [ih]
        constructor
        · rintro h q hq
          rcases List.mem_cons.1 hq with rfl | hq
          · rintro ⟨c', hc', hr⟩
            rw [hp] at hc'
            cases hc'
            exact hg hr
          · exact h q hq
        · intro h q hq
          exact h q (List.mem_cons_of_mem _ hq)

theorem frameLoop_eq_found (fs : String → Option String) (frame : StackTraceFrame)
    (ps : List String) (ctx : FrameContext) (h : frameLoop fs frame ps = .found ctx) :
    ∃ pre p post, ps = pre ++ p :: post ∧ (∀ q ∈ pre, ¬resolvesAt fs frame q) ∧
      ∃ c, fs p = some c ∧ 1 ≤ frame.line ∧ frame.line ≤ lineCountOf c ∧
        ctx = buildCtx p c frame := by
  induction ps with
  | nil => simp [frameLoop] at h
  | cons p rest ih =>
    cases hp : fs p with
    | none =>
      simp only [frameLoop, hp] at h
      obtain ⟨pre, q, post, hps, hpre, hw⟩ := ih h
      refine ⟨p :: pre, q, post, by simp [hps], ?_, hw⟩
      intro q' hq'
      rcases List.mem_cons.1 hq' with rfl | hq'
      · rintro ⟨c, hc, -⟩
        rw [hp] at hc
        cases hc
      · exact hpre q' hq'
    | some c =>
      simp only [frameLoop, hp] at h
      by_cases hg : 1 ≤ frame.line ∧ frame.line ≤ (splitLines c).length
      · rw [if_pos hg] at h
        cases h
        exact ⟨[], p, rest, rfl, by simp, c, hp, hg.1, hg.2, rfl⟩
      · rw [if_neg hg] at h
        obtain ⟨pre, q, post, hps, hpre, hw⟩ := ih h
        refine ⟨p :: pre, q, post, by simp [hps], ?_, hw⟩
        intro q' hq'
        rcases List.mem_cons.1 hq' with rfl | hq'
        · rintro ⟨c', hc', hr⟩
          rw [hp] at hc'
          cases hc'
          exact hg hr
        · exact hpre q' hq'

theorem found_resolvesAt (fs : String → Option String) (frame : StackTraceFrame)
    (root : String) (ctx : FrameContext)
    (h : analyzeFileForStackFrame fs frame root = .found ctx) :
    resolvesAt fs frame ctx.path ∧ ctx.path ∈ candidatePaths root frame.filename := by
  obtain ⟨pre, p, post, hps, hpre, c, hc, h1, h2, hctx⟩ :=
    frameLoop_eq_found fs frame _ ctx h
  subst hctx
  exact ⟨⟨c, hc, h1, h2⟩, by rw [hps]; simp [buildCtx]⟩

/-! ### Concrete instances for counterexamples and witnesses -/

/-! ### C1 -/

/-- C1, counterexample to the claim as stated: the frame's referenced
file resolves (per the spec's resolution contract, embodied by
`specResolve`) to `r1/a.rb`, whose `lineCount` is 2, and the target
line 5 is outside `[1, 2]`; the claim then demands the "no context
available" outcome for this frame, but the analysis instead returns a
context block — drawn from the later candidate `r1/src/a.rb`. -/
theorem C1_counterexample :
    specResolve fsC1 "r1" "a.rb" = some "r1/a.rb" ∧
    lineCountOf "x1\nx2" = 2 ∧ frameC1.line = 5 ∧
    analyzeFileForStackFrame fsC1 frameC1 "r1" ≠ FrameResult.notFound "a.rb" ∧
    (analyzeFileForStackFrame fsC1 frameC1 "r1").pathOf = some "r1/src/a.rb" := by
  decide

/-- C1, amended: when the target line is outside `[1, lineCount]` of
every candidate file that exists (in particular, whenever the only
existing candidate is the resolved one), the frame's outcome is the
degraded no-context message (the code's single not-found message) for
that frame only; the other frames of the same investigation are still
analyzed, each independently. -/
theorem C1_out_of_range_no_context (fs : String → Option String) (frame : StackTraceFrame)
    (root : String)
    (h : ∀ p ∈ candidatePaths root frame.filename, ∀ c, fs p = some c →
      ¬(1 ≤ frame.line ∧ frame.line ≤ lineCountOf c)) :
    analyzeFileForStackFrame fs frame root = FrameResult.notFound frame.filename ∧
    ∀ trace fr frs, analyzeStackTrace fs trace root = .report fr frs →
      frs = (fr.take 5).map fun f => analyzeFileForStackFrame fs f root := by
  constructor
  · exact (frameLoop_eq_notFound_iff fs frame _).2 fun p hp ⟨c, hc, hr⟩ => h p hp c hc hr
  · intro trace fr frs hrep
    simp only [analyzeStackTrace] at hrep
    by_cases hz : (parseStackTrace trace).length = 0
    · rw [if_pos hz] at hrep
      cases hrep
    · rw [if_neg hz] at hrep
      cases hrep
      rfl

/-- C1 witness: in a file system where every file has a single line, a
frame targeting line 9 gets the not-found outcome. -/
theorem C1_wit :
    analyzeFileForStackFrame fsW1 frameW1 "w" = FrameResult.notFound "a.rb" :=
  (C1_out_of_range_no_context fsW1 frameW1 "w" (by
    intro p hp c hc
    rw [show fsW1 p = some "w1" from rfl] at hc
    cases hc
    decide)).1

/-! ### C2 -/

/-- C2, counterexample to the claim as stated: the first candidate that
exists and is readable is `r2/b.rb` (as `specResolve`, written from
the spec's words, confirms), yet the analysis resolves the frame to
`r2/src/b.rb`, because the target line 7 is out of range of
`r2/b.rb`'s single line. -/
theorem C2_counterexample :
    specResolve fsC2 "r2" "b.rb" = some "r2/b.rb" ∧
    (analyzeFileForStackFrame fsC2 frameC2 "r2").pathOf = some "r2/src/b.rb" := by
  decide

/-- C2, amended: resolution tries `root/name`, `root/src/name`,
`root/app/name` in exactly that fixed order and returns the first
candidate that exists, is readable, and whose content has the frame's
line within `[1, lineCount]`; when none qualifies, the result is the
non-error not-found outcome for that frame, and the other frames of
the investigation are still processed. -/
theorem C2_resolution_order (fs : String → Option String) (frame : StackTraceFrame)
    (root : String) :
    candidatePaths root frame.filename =
      [pjoin root frame.filename, pjoin (pjoin root "src") frame.filename,
       pjoin (pjoin root "app") frame.filename] ∧
    (analyzeFileForStackFrame fs frame root = FrameResult.notFound frame.filename ↔
      ∀ p ∈ candidatePaths root frame.filename, ¬resolvesAt fs frame p) ∧
    (∀ ctx, analyzeFileForStackFrame fs frame root = .found ctx →
      ∃ pre p post, candidatePaths root frame.filename = pre ++ p :: post ∧
        (∀ q ∈ pre, ¬resolvesAt fs frame q) ∧ resolvesAt fs frame p ∧ ctx.path = p) ∧
    ∀ trace fr frs, analyzeStackTrace fs trace root = .report fr frs →
      frs = (fr.take 5).map fun f => analyzeFileForStackFrame fs f root := by
  refine ⟨rfl, frameLoop_eq_notFound_iff fs frame _, ?_, ?_⟩
  · intro ctx hctx
    obtain ⟨pre, p, post, hps, hpre, c, hc, h1, h2, hbuild⟩ :=
      frameLoop_eq_found fs frame _ ctx hctx
    exact ⟨pre, p, post, hps, hpre, ⟨c, hc, h1, h2⟩, by rw [hbuild]; rfl⟩
  · intro trace fr frs hrep
    simp only [analyzeStackTrace] at hrep
    by_cases hz : (parseStackTrace trace).length = 0
    · rw [if_pos hz] at hrep
      cases hrep
    · rw [if_neg hz] at hrep
      cases hrep
      rfl

/-- C2 witness: the amended characterization applied to the concrete
`fsC2` instance — the not-found case of the equivalence, on a file
system with no readable candidate. -/
theorem C2_wit :
    analyzeFileForStackFrame (fun _ => none) frameC2 "r2" = FrameResult.notFound "b.rb" :=
  (C2_resolution_order (fun _ => none) frameC2 "r2").2.1.2 (by
    rintro p - ⟨c, hc, -⟩
    cases hc)

/-! ### C9 -/

/-- C9: a candidate that exists and is readable is skipped when the
frame's line is out of range of its content, and the loop then tries
the next candidate in the fixed order — so a frame can resolve to
`root/src/name` even though `root/name` exists; moreover a frame is
only ever resolved to a candidate whose content has the target line in
range. -/
theorem C9_resolution_skips_out_of_range (fs : String → Option String)
    (frame : StackTraceFrame) (root : String) (c1 c2 : String)
    (h1 : fs (pjoin root frame.filename) = some c1)
    (h2 : ¬(1 ≤ frame.line ∧ frame.line ≤ lineCountOf c1))
    (h3 : fs (pjoin (pjoin root "src") frame.filename) = some c2)
    (h4 : 1 ≤ frame.line ∧ frame.line ≤ lineCountOf c2) :
    analyzeFileForStackFrame fs frame root =
      .found (buildCtx (pjoin (pjoin root "src") frame.filename) c2 frame) ∧
    ∀ ctx, analyzeFileForStackFrame fs frame root = .found ctx →
      resolvesAt fs frame ctx.path := by
  have h2' : ¬(1 ≤ frame.line ∧ frame.line ≤ (splitLines c1).length) := h2
  have h4' : 1 ≤ frame.line ∧ frame.line ≤ (splitLines c2).length := h4
  constructor
  · simp only [analyzeFileForStackFrame, candidatePaths, frameLoop, h1, h3,
      if_neg h2', if_pos h4']
  · intro ctx hctx
    exact (found_resolvesAt fs frame root ctx hctx).1

/-- C9 witness: `r9/c.rb` exists with 2 lines but the frame targets
line 4, so resolution skips it and lands on the 5-line
`r9/src/c.rb`. -/
theorem C9_wit :
    analyzeFileForStackFrame fsC9 frameC9 "r9" =
      .found (buildCtx "r9/src/c.rb" "v1\nv2\nv3\nv4\nv5" frameC9) :=
  (C9_resolution_skips_out_of_range fsC9 frameC9 "r9" "u1\nu2" "v1\nv2\nv3\nv4\nv5"
    (by decide) (by decide) (by decide) (by decide)).1

/-! ### C10 -/

/-- C10: `lineCount` is the number of `'\n'` characters plus one; the
empty content reports 1; a trailing newline adds a phantom final line;
and that phantom line number is in range for context extraction — a
frame targeting it resolves and its context window contains the empty
phantom line as the target entry. -/
theorem C10_lineCount_trailing_newline :
    (∀ s : String, lineCountOf s = s.toList.count '\n' + 1) ∧
    lineCountOf "" = 1 ∧
    (∀ t : List Char, lineCountOf (String.mk (t ++ ['\n'])) = lineCountOf (String.mk t) + 1) ∧
    ∀ (fs : String → Option String) (frame : StackTraceFrame) (root : String) (t : List Char),
      fs (pjoin root frame.filename) = some (String.mk (t ++ ['\n'])) →
      frame.line = lineCountOf (String.mk (t ++ ['\n'])) →
      ∃ ctx, analyzeFileForStackFrame fs frame root = .found ctx ∧
        (⟨frame.line, "", CtxRole.target⟩ : ContextLine) ∈ ctx.contextLines := by
  refine ⟨lineCountOf_eq_count, by decide, ?_, ?_⟩
  · intro t
    simp [lineCountOf_eq_count, toList_mk, List.count_append]
  · intro fs frame root t hfs hline
    have hL1 : 1 ≤ lineCountOf (String.mk (t ++ ['\n'])) :=
      lineCountOf_pos (String.mk (t ++ ['\n']))
    have hguard : 1 ≤ frame.line ∧
        frame.line ≤ (splitLines (String.mk (t ++ ['\n']))).length := by
      rw [hline]
      exact ⟨hL1, le_refl _⟩
    refine ⟨buildCtx (pjoin root frame.filename) (String.mk (t ++ ['\n'])) frame, ?_, ?_⟩
    · simp only [analyzeFileForStackFrame, candidatePaths, frameLoop, hfs, if_pos hguard]
    · have hlen : (splitLines (String.mk (t ++ ['\n']))).length =
          lineCountOf (String.mk (t ++ ['\n'])) := rfl
      have hlast : (splitLines (String.mk (t ++ ['\n']))).getD (frame.line - 1) "" = "" := by
        rw [List.getD_eq_getElem?_getD]
        have h := splitLines_getLast_sep t
        rw [List.getLast?_eq_getElem?, hlen, ← hline] at h
        simp [h]
      simp only [buildCtx, getContextLines, List.mem_map]
      refine ⟨frame.line - 1, ?_, ?_⟩
      · rw [List.mem_range']
        refine ⟨frame.line - 1 - (frame.line - 1 - 3), ?_, by omega⟩
        rw [hlen, ← hline]
        omega
      · rw [hlast]
        have : ¬(frame.line - 1 < frame.line - 1) := lt_irrefl _
        simp [this]
        omega

/-- C10 witness: content `"x\n"` has `lineCount` 2, and a frame
targeting line 2 of it resolves with the empty phantom line as the
target entry of the window. -/
theorem C10_wit :
    ∃ ctx, analyzeFileForStackFrame fsW10 frameW10 "w" = .found ctx ∧
      (⟨frameW10.line, "", CtxRole.target⟩ : ContextLine) ∈ ctx.contextLines :=
  C10_lineCount_trailing_newline.2.2.2 fsW10 frameW10 "w" ['x'] (by decide) (by decide)

/-! ### C3 -/

theorem map_succ_range' (s n : Nat) :
    (List.range' s n).map (· + 1) = List.range' (s + 1) n := by
  induction n generalizing s with
  | zero => simp
  | succ n ih => simp [List.range'_succ, ih]

theorem getLast?_range' (s n : Nat) (h : 0 < n) :
    (List.range' s n).getLast? = some (s + n - 1) := by
  rw [List.getLast?_eq_getElem?, List.length_range',
    List.getElem?_range' _ _ (show n - 1 < n by omega)]
  congr 1
  omega

theorem getContextLines_map_lineNumber (lines : List String) (targetLine contextSize : Nat) :
    (getContextLines lines targetLine contextSize).map ContextLine.lineNumber =
    List.range' (targetLine - contextSize + 1)
      (min lines.length (targetLine + contextSize + 1) - (targetLine - contextSize)) := by
  simp only [getContextLines, List.map_map]
  exact map_succ_range' _ _

theorem getContextLines_length (lines : List String) (targetLine contextSize : Nat) :
    (getContextLines lines targetLine contextSize).length =
    min lines.length (targetLine + contextSize + 1) - (targetLine - contextSize) := by
  simp [getContextLines]

/-- C3: for an in-range 1-based target `t` and any radius `r`, the
window consists exactly of the 0-based indices in
`[max(0, (t-1)-r), min(lineCount, (t-1)+r+1))` (shown through the
1-based line numbers `range' (t-1-r+1)` and the per-entry content);
its first and last line numbers satisfy
`1 ≤ first ≤ t ≤ last ≤ lineCount`; and away from both boundaries its
length is `min(lineCount, 2r+1)` — near a boundary it simply shrinks,
never erring. -/
theorem C3_window_bounds (lines : List String) (r t : Nat) (h1 : 1 ≤ t)
    (h2 : t ≤ lines.length) :
    (getContextLines lines (t - 1) r).map ContextLine.lineNumber =
      List.range' (t - 1 - r + 1) (min lines.length (t + r) - (t - 1 - r)) ∧
    (∀ e ∈ getContextLines lines (t - 1) r, e.content = lines.getD (e.lineNumber - 1) "") ∧
    (getContextLines lines (t - 1) r).head?.map ContextLine.lineNumber =
      some (t - 1 - r + 1) ∧
    (getContextLines lines (t - 1) r).getLast?.map ContextLine.lineNumber =
      some (min lines.length (t + r)) ∧
    1 ≤ t - 1 - r + 1 ∧ t - 1 - r + 1 ≤ t ∧ t ≤ min lines.length (t + r) ∧
    min lines.length (t + r) ≤ lines.length ∧
    (r < t → t + r ≤ lines.length →
      (getContextLines lines (t - 1) r).length = min lines.length (2 * r + 1)) := by
  have hstop : t - 1 + r + 1 = t + r := by omega
  have hlt : t - 1 - r < min lines.length (t + r) := by omega
  refine ⟨?_, ?_, ?_, ?_, by omega, by omega, by omega, by omega, ?_⟩
  · rw [getContextLines_map_lineNumber, hstop]
  · intro e he
    simp only [getContextLines, List.mem_map] at he
    obtain ⟨i, -, rfl⟩ := he
    rfl
  · rw [← List.head?_map, getContextLines_map_lineNumber, hstop]
    obtain ⟨n, hn⟩ : ∃ n, min lines.length (t + r) - (t - 1 - r) = n + 1 :=
      ⟨min lines.length (t + r) - (t - 1 - r) - 1, by omega⟩
    rw [hn, List.range'_succ]
    rfl
  · rw [← List.getLast?_map, getContextLines_map_lineNumber, hstop,
      getLast?_range' _ _ (by omega)]
    congr 1
    omega
  · intro hrt hb
    rw [getContextLines_length, hstop]
    omega

/-- C3 witness: a five-line file, radius 1, target line 3: the window
is lines 2–4. -/
theorem C3_wit :
    (getContextLines ["a", "b", "c", "d", "e"] (3 - 1) 1).map ContextLine.lineNumber =
      List.range' (3 - 1 - 1 + 1)
        (min (["a", "b", "c", "d", "e"] : List String).length (3 + 1) - (3 - 1 - 1)) :=
  (C3_window_bounds ["a", "b", "c", "d", "e"] 1 3 (by decide) (by decide)).1

/-! ### C4 -/

/-- C4: `parse` is total and never raises — each unrecognizable line
contributes nothing, so the result is empty exactly when no line is
recognizable; and the caller-facing analysis reports the distinct
"could not parse" outcome exactly in that case, instead of
throwing. -/
theorem C4_parse_never_errors (text : String) :
    (parseStackTrace text = [] ↔ ∀ line ∈ splitLines text, parseLine line = none) ∧
    ∀ (fs : String → Option String) (root : String),
      (analyzeStackTrace fs text root = .couldNotParse ↔ parseStackTrace text = []) := by
  constructor
  · exact List.filterMap_eq_nil_iff
  · intro fs root
    simp only [analyzeStackTrace]
    by_cases hz : (parseStackTrace text).length = 0
    · simp [if_pos hz, List.length_eq_zero.1 hz]
    · rw [if_neg hz]
      constructor
      · intro h
        cases h
      · intro h
        exact absurd (h ▸ rfl) hz

/-- C4 witness: a text with no recognizable line parses to the empty
sequence. -/
theorem C4_wit : parseStackTrace "hello world" = [] :=
  (C4_parse_never_errors "hello world").1.mpr (by decide)

/-! ### C8 -/

/-- C8: discovery mode returns at most 50 analyses; every returned
analysis comes from an enumerated file that the loaded ignore rules
(if any) do not ignore — the cap is applied after the ignore
filtering; and when the root has no readable ignore file, the scan
degrades to no additional exclusions rather than an error. -/
theorem C8_discovery_cap (fs : String → Option String) (ignoreOf : String → String → Bool)
    (files : List String) (root : String) :
    (analyzeCodebase fs ignoreOf files root).length ≤ 50 ∧
    (∀ a ∈ analyzeCodebase fs ignoreOf files root, ∃ f ∈ files, a.path = pjoin root f ∧
      ∀ isIgnored, loadGitignore fs ignoreOf root = some isIgnored → isIgnored f = false) ∧
    (fs (pjoin root ".gitignore") = none →
      analyzeCodebase fs ignoreOf files root =
        (files.take 50).filterMap fun f => analyzeFile fs (pjoin root f)) := by
  refine ⟨?_, ?_, ?_⟩
  · exact le_trans (List.length_filterMap_le _ _) (List.length_take_le _ _)
  · intro a ha
    simp only [analyzeCodebase, List.mem_filterMap] at ha
    obtain ⟨f, hf, hfa⟩ := ha
    have hf' := List.mem_of_mem_take hf
    have hpath : a.path = pjoin root f := by
      simp only [analyzeFile, Option.map_eq_some'] at hfa
      obtain ⟨content, -, rfl⟩ := hfa
      rfl
    cases hrules : loadGitignore fs ignoreOf root with
    | none =>
      refine ⟨f, ?_, hpath, ?_⟩
      · rw [hrules] at hf'
        exact hf'
      · intro ig hig
        cases hig
    | some isIgnored =>
      rw [hrules] at hf'
      simp only [filterIgnoredFiles, List.mem_filter] at hf'
      refine ⟨f, hf'.1, hpath, ?_⟩
      intro ig hig
      cases hig
      simpa using hf'.2
  · intro hnone
    simp only [analyzeCodebase, loadGitignore, hnone, Option.map_none', filterIgnoredFiles]

/-- C8 witness: a one-file enumeration yields at most 50 analyses. -/
theorem C8_wit :
    (analyzeCodebase (fun _ => none) (fun _ _ => false) ["a.rb"] "r").length ≤ 50 :=
  (C8_discovery_cap (fun _ => none) (fun _ _ => false) ["a.rb"] "r").1

/-! ### C7 -/

/-- C7, counterexample to the "in particular" part of the claim: the
backward scan starts at the target line's own index, so a target at
index 0 whose own line is a recognized declaration yields that
declaration's name, not the "unknown" sentinel. -/
theorem C7_counterexample : findContainingFunction ["def foo"] 0 = some "foo" := by
  decide

/-- C7, amended: the heuristic scans backward from the target line's
own index down to index 0 and returns the first match's captured name;
when no scanned line (including the target line itself) matches, the
result is the "unknown" outcome (`none`), never an error; a target at
index 0 therefore yields "unknown" exactly when line 0 itself matches
no declaration recognizer. -/
theorem C7_backward_scan (lines : List String) (t : Nat) (hrange : t < lines.length) :
    (findContainingFunction lines t = none ↔
      ∀ i, i ≤ t → declMatch (lines.getD i "") = none) ∧
    (∀ name, findContainingFunction lines t = some name →
      ∃ i, i ≤ t ∧ declMatch (lines.getD i "") = some name ∧
        ∀ j, i < j → j ≤ t → declMatch (lines.getD j "") = none) ∧
    findContainingFunction lines 0 = declMatch (lines.getD 0 "") := by
  clear hrange
  refine ⟨?_, ?_, rfl⟩
  · induction t with
    | zero =>
      simp only [findContainingFunction]
      constructor
      · intro h i hi
        rw [Nat.le_zero.1 hi]
        exact h
      · intro h
        exact h 0 le_rfl
    | succ t ih =>
      simp only [findContainingFunction]
      cases hd : declMatch (lines.getD (t + 1) "") with
      | some name =>
        constructor
        · intro h
          cases h
        · intro h
          exact absurd hd (by rw [h (t + 1) le_rfl]; simp)
      | none =>
        rw [ih]
        constructor
        · intro h i hi
          rcases Nat.lt_or_ge i (t + 1) with hi' | hi'
          · exact h i (by omega)
          · rw [show i = t + 1 by omega]
            exact hd
        · intro h i hi
          exact h i (by omega)
  · induction t with
    | zero =>
      intro name h
      simp only [findContainingFunction] at h
      exact ⟨0, le_rfl, h, by omega⟩
    | succ t ih =>
      intro name h
      simp only [findContainingFunction] at h
      cases hd : declMatch (lines.getD (t + 1) "") with
      | some name' =>
        rw [hd] at h
        cases h
        exact ⟨t + 1, le_rfl, hd, by omega⟩
      | none =>
        rw [hd] at h
        obtain ⟨i, hi, hmatch, hafter⟩ := ih name h
        refine ⟨i, by omega, hmatch, ?_⟩
        intro j hij hjt
        rcases Nat.lt_or_ge j (t + 1) with hj' | hj'
        · exact hafter j hij (by omega)
        · rw [show j = t + 1 by omega]
          exact hd

/-- C7 witness: a single non-declaration line at index 0 yields the
"unknown" outcome. -/
theorem C7_wit : findContainingFunction ["x"] 0 = none :=
  (C7_backward_scan ["x"] 0 (by decide)).1.mpr (by
    intro i hi
    rw [Nat.le_zero.1 hi]
    decide)


/-! ### Soundness of the regex engine (star-free fragment) -/

theorem mem_natsDown {n k : Nat} : n ∈ natsDown k ↔ 1 ≤ n ∧ n ≤ k := by
  induction k with
  | zero =>
    simp only [natsDown, List.not_mem_nil, false_iff]
    omega
  | succ k ih =>
    simp only [natsDown, List.mem_cons, ih]
    omega

theorem mem_natsUp {n k : Nat} : n ∈ natsUp k ↔ 1 ≤ n ∧ n ≤ k := by
  simp only [natsUp, List.mem_map, List.mem_range]
  constructor
  · rintro ⟨m, hm, rfl⟩
    omega
  · intro h
    exact ⟨n - 1, by omega, by omega⟩

theorem runLen_le_length (p : Char → Bool) (l : List Char) : runLen p l ≤ l.length := by
  induction l with
  | nil => simp [runLen]
  | cons c t ih =>
    simp only [runLen, List.length_cons]
    by_cases h : p c = true
    · rw [if_pos h]
      omega
    · rw [if_neg h]
      omega

theorem mem_take_runLen (p : Char → Bool) {n : Nat} {l : List Char} (hn : n ≤ runLen p l) :
    ∀ c ∈ l.take n, p c = true := by
  induction l generalizing n with
  | nil => simp
  | cons x t ih =>
    cases n with
    | zero => simp
    | succ n =>
      simp only [runLen] at hn
      by_cases hx : p x = true
      · rw [if_pos hx] at hn
        intro c hc
        rcases List.mem_cons.1 (by simpa using hc) with rfl | hc'
        · exact hx
        · exact ih (by omega) c hc'
      · rw [if_neg hx] at hn
        omega

theorem allM_sound (r : RE) (hr : noStarR r = true) :
    ∀ (s : List Char) (caps : List String) (rest : List Char),
      (caps, rest) ∈ allM r s →
      caps = [] ∧ ∃ pre, s = pre ++ rest ∧ (∀ c ∈ pre, consPredR r c = true) ∧
        minLenR r ≤ pre.length := by
  induction r with
  | eps =>
    intro s caps rest h
    simp only [allM, List.mem_singleton, Prod.mk.injEq] at h
    exact ⟨h.1, [], by simp [h.2], by simp, by simp [minLenR]⟩
  | ch p =>
    intro s caps rest h
    cases s with
    | nil => simp [allM] at h
    | cons c t =>
      simp only [allM] at h
      by_cases hc : p c = true
      · rw [if_pos hc] at h
        simp only [List.mem_singleton, Prod.mk.injEq] at h
        refine ⟨h.1, [c], by simp [h.2], ?_, by simp [minLenR]⟩
        intro c' hc'
        rw [List.mem_singleton.1 hc']
        exact hc
      · rw [if_neg hc] at h
        simp at h
  | cat a b iha ihb =>
    intro s caps rest h
    simp only [noStarR, Bool.and_eq_true] at hr
    simp only [allM, List.mem_flatMap, List.mem_map] at h
    obtain ⟨⟨ca, ra⟩, hma, ⟨cb, rb⟩, hmb, heq⟩ := h
    obtain ⟨rfl, pa, rfl, hpa, hla⟩ := iha hr.1 _ _ _ hma
    obtain ⟨rfl, pb, rfl, hpb, hlb⟩ := ihb hr.2 _ _ _ hmb
    cases heq
    refine ⟨rfl, pa ++ pb, by simp, ?_, ?_⟩
    · intro c hc
      simp only [consPredR, Bool.or_eq_true]
      rcases List.mem_append.1 hc with h' | h'
      · exact Or.inl (hpa c h')
      · exact Or.inr (hpb c h')
    · simp only [minLenR, List.length_append]
      omega
  | alt a b iha ihb =>
    intro s caps rest h
    simp only [noStarR, Bool.and_eq_true] at hr
    simp only [allM, List.mem_append] at h
    rcases h with h | h
    · obtain ⟨rfl, pre, rfl, hp, hl⟩ := iha hr.1 _ _ _ h
      refine ⟨rfl, pre, rfl, ?_, ?_⟩
      · intro c hc
        simp only [consPredR, Bool.or_eq_true]
        exact Or.inl (hp c hc)
      · simp only [minLenR]
        omega
    · obtain ⟨rfl, pre, rfl, hp, hl⟩ := ihb hr.2 _ _ _ h
      refine ⟨rfl, pre, rfl, ?_, ?_⟩
      · intro c hc
        simp only [consPredR, Bool.or_eq_true]
        exact Or.inr (hp c hc)
      · simp only [minLenR]
        omega
  | opt a iha =>
    intro s caps rest h
    simp only [noStarR] at hr
    simp only [allM, List.mem_append, List.mem_singleton, Prod.mk.injEq] at h
    rcases h with h | ⟨rfl, rfl⟩
    · obtain ⟨rfl, pre, rfl, hp, hl⟩ := iha hr _ _ _ h
      exact ⟨rfl, pre, rfl, hp, by simp [minLenR]⟩
    · exact ⟨rfl, [], by simp, by simp, by simp [minLenR]⟩
  | plusG p =>
    intro s caps rest h
    simp only [allM, List.mem_map] at h
    obtain ⟨n, hn, heq⟩ := h
    rw [mem_natsDown] at hn
    cases heq
    refine ⟨rfl, s.take n, (List.take_append_drop n s).symm, mem_take_runLen p hn.2, ?_⟩
    rw [List.length_take]
    have := runLen_le_length p s
    simp only [minLenR]
    omega
  | plusL p =>
    intro s caps rest h
    simp only [allM, List.mem_map] at h
    obtain ⟨n, hn, heq⟩ := h
    rw [mem_natsUp] at hn
    cases heq
    refine ⟨rfl, s.take n, (List.take_append_drop n s).symm, mem_take_runLen p hn.2, ?_⟩
    rw [List.length_take]
    have := runLen_le_length p s
    simp only [minLenR]
    omega
  | starG p =>
    intro s caps rest h
    simp only [allM, List.mem_append, List.mem_map, List.mem_singleton, Prod.mk.injEq] at h
    rcases h with ⟨n, hn, rfl, rfl⟩ | ⟨rfl, rfl⟩
    · rw [mem_natsDown] at hn
      exact ⟨rfl, s.take n, (List.take_append_drop n s).symm, mem_take_runLen p hn.2,
        by simp [minLenR]⟩
    · exact ⟨rfl, [], by simp, by simp, by simp [minLenR]⟩
  | starL p =>
    intro s caps rest h
    simp only [allM, List.mem_append, List.mem_map, List.mem_singleton, Prod.mk.injEq] at h
    rcases h with ⟨rfl, rfl⟩ | ⟨n, hn, rfl, rfl⟩
    · exact ⟨rfl, [], by simp, by simp, by simp [minLenR]⟩
    · rw [mem_natsUp] at hn
      exact ⟨rfl, s.take n, (List.take_append_drop n s).symm, mem_take_runLen p hn.2,
        by simp [minLenR]⟩
  | star a iha =>
    intro s caps rest h
    simp [noStarR] at hr

theorem SubSeg.within {a l : List Char} (u v : List Char) (h : SubSeg a l) :
    SubSeg a (u ++ l ++ v) := by
  obtain ⟨x, y, rfl⟩ := h
  exact ⟨u ++ x, y ++ v, by simp⟩

theorem length_groupPreds (g : GRE) : (groupPreds g).length = numGroups g := by
  induction g with
  | re r => rfl
  | grp r => rfl
  | gcat a b iha ihb => simp [groupPreds, numGroups, iha, ihb]

theorem length_groupMins (g : GRE) : (groupMins g).length = numGroups g := by
  induction g with
  | re r => rfl
  | grp r => rfl
  | gcat a b iha ihb => simp [groupMins, numGroups, iha, ihb]

theorem allG_sound (g : GRE) (hg : noStarG g = true) :
    ∀ (s : List Char) (caps : List String) (rest : List Char),
      (caps, rest) ∈ allG g s →
      (∃ pre, s = pre ++ rest) ∧ caps.length = numGroups g ∧
      ∀ k, k < numGroups g →
        SubSeg (caps.getD k "").toList s ∧
        (∀ c ∈ (caps.getD k "").toList,
          (groupPreds g).getD k (fun _ => false) c = true) ∧
        (groupMins g).getD k 0 ≤ (caps.getD k "").toList.length := by
  induction g with
  | re r =>
    intro s caps rest h
    obtain ⟨rfl, pre, rfl, -, -⟩ := allM_sound r hg _ _ _ h
    exact ⟨⟨pre, rfl⟩, rfl, fun k hk => absurd hk (by simp [numGroups])⟩
  | grp r =>
    intro s caps rest h
    simp only [allG, grpAllM, List.mem_map] at h
    obtain ⟨⟨ca, ra⟩, hm, heq⟩ := h
    obtain ⟨rfl, pre, rfl, hp, hl⟩ := allM_sound r hg _ _ _ hm
    have htake : (pre ++ ra).take ((pre ++ ra).length - ra.length) = pre := by
      simp only [List.length_append]
      rw [show pre.length + ra.length - ra.length = pre.length by omega, List.take_left]
    rw [htake] at heq
    cases heq
    refine ⟨⟨pre, rfl⟩, rfl, ?_⟩
    intro k hk
    rw [show k = 0 from by simpa [numGroups] using hk]
    refine ⟨⟨[], ra, by simp [toList_mk]⟩, ?_, ?_⟩
    · intro c hc
      rw [toList_mk] at hc
      exact hp c hc
    · rw [toList_mk]
      exact hl
  | gcat a b iha ihb =>
    intro s caps rest h
    simp only [noStarG, Bool.and_eq_true] at hg
    simp only [allG, List.mem_flatMap, List.mem_map] at h
    obtain ⟨⟨ca, ra⟩, hma, ⟨cb, rb⟩, hmb, heq⟩ := h
    cases heq
    dsimp only at hmb
    obtain ⟨⟨pa, rfl⟩, hla, hka⟩ := iha hg.1 _ _ _ hma
    obtain ⟨⟨pb, rfl⟩, hlb, hkb⟩ := ihb hg.2 _ _ _ hmb
    refine ⟨⟨pa ++ pb, by simp⟩, by simp [numGroups, hla, hlb], ?_⟩
    intro k hk
    by_cases hka' : k < numGroups a
    · have hgetcap : (ca ++ cb).getD k "" = ca.getD k "" :=
        List.getD_append _ _ _ _ (by omega)
      have hgetp : (groupPreds (GRE.gcat a b)).getD k (fun _ => false) =
          (groupPreds a).getD k (fun _ => false) := by
        simp only [groupPreds]
        exact List.getD_append _ _ _ _ (by rw [length_groupPreds]; omega)
      have hgetm : (groupMins (GRE.gcat a b)).getD k 0 = (groupMins a).getD k 0 := by
        simp only [groupMins]
        exact List.getD_append _ _ _ _ (by rw [length_groupMins]; omega)
      obtain ⟨hsub, hpred, hmin⟩ := hka k hka'
      refine ⟨?_, ?_, ?_⟩
      · rw [hgetcap]
        exact hsub
      · rw [hgetcap, hgetp]
        exact hpred
      · rw [hgetcap, hgetm]
        exact hmin
    · have hk2 : k - numGroups a < numGroups b := by
        simp only [numGroups] at hk
        omega
      have hgetcap : (ca ++ cb).getD k "" = cb.getD (k - numGroups a) "" := by
        rw [List.getD_append_right _ _ _ _ (by omega), hla]
      have hgetp : (groupPreds (GRE.gcat a b)).getD k (fun _ => false) =
          (groupPreds b).getD (k - numGroups a) (fun _ => false) := by
        simp only [groupPreds]
        rw [List.getD_append_right _ _ _ _ (by rw [length_groupPreds]; omega),
          length_groupPreds]
      have hgetm : (groupMins (GRE.gcat a b)).getD k 0 =
          (groupMins b).getD (k - numGroups a) 0 := by
        simp only [groupMins]
        rw [List.getD_append_right _ _ _ _ (by rw [length_groupMins]; omega),
          length_groupMins]
      obtain ⟨hsub, hpred, hmin⟩ := hkb (k - numGroups a) hk2
      refine ⟨?_, ?_, ?_⟩
      · rw [hgetcap]
        obtain ⟨x, y, hxy⟩ := hsub
        exact ⟨pa ++ x, y, by rw [hxy]; simp⟩
      · rw [hgetcap, hgetp]
        exact hpred
      · rw [hgetcap, hgetm]
        exact hmin

theorem head?_mem {α : Type _} {l : List α} {a : α} (h : l.head? = some a) : a ∈ l := by
  cases l with
  | nil => cases h
  | cons x t =>
    simp only [List.head?_cons, Option.some.injEq] at h
    rw [← h]
    exact List.mem_cons_self x t

theorem reFindFrom_sound (g : GRE) :
    ∀ (s : List Char) (pr : List String × List Char), reFindFrom g s = some pr →
      ∃ u t, s = u ++ t ∧ pr ∈ allG g t := by
  intro s
  induction s with
  | nil =>
    intro pr h
    simp only [reFindFrom] at h
    exact ⟨[], [], rfl, head?_mem h⟩
  | cons c t ih =>
    intro pr h
    simp only [reFindFrom] at h
    cases hh : (allG g (c :: t)).head? with
    | some pr2 =>
      rw [hh] at h
      cases h
      exact ⟨[], c :: t, rfl, head?_mem hh⟩
    | none =>
      rw [hh] at h
      obtain ⟨u, t2, heq, hm⟩ := ih pr h
      exact ⟨c :: u, t2, by rw [heq]; rfl, hm⟩

theorem reFind_group_facts (g : GRE) (hg : noStarG g = true) (s : List Char)
    (caps : List String) (h : reFind g s = some caps) :
    caps.length = numGroups g ∧
    ∀ k, k < numGroups g →
      SubSeg (caps.getD k "").toList s ∧
      (∀ c ∈ (caps.getD k "").toList,
        (groupPreds g).getD k (fun _ => false) c = true) ∧
      (groupMins g).getD k 0 ≤ (caps.getD k "").toList.length := by
  rw [reFind] at h
  cases hf : reFindFrom g s with
  | none =>
    rw [hf] at h
    cases h
  | some pr =>
  rw [hf] at h
  obtain ⟨caps2, rest⟩ := pr
  cases h
  obtain ⟨u, t, rfl, hmem⟩ := reFindFrom_sound g _ _ hf
  obtain ⟨⟨pre, hpre⟩, hlen, hk⟩ := allG_sound g hg _ _ _ hmem
  refine ⟨hlen, fun k hki => ?_⟩
  obtain ⟨hsub, hpred, hmin⟩ := hk k hki
  refine ⟨?_, hpred, hmin⟩
  obtain ⟨x, y, hxy⟩ := hsub
  exact ⟨u ++ x, y, by rw [hxy]; simp⟩

/-! ### C5 -/

theorem lastSegment_noSep (s : String) :
    ∀ c ∈ (lastSegment s).toList, ¬(c = '/' ∨ c = '\\') := by
  suffices h : ∀ (l acc : List Char), (∀ c ∈ acc, ¬(c = '/' ∨ c = '\\')) →
      ∀ c ∈ l.foldl (fun acc c => if c = '/' ∨ c = '\\' then [] else acc ++ [c]) acc,
        ¬(c = '/' ∨ c = '\\') by
    intro c hc
    exact h s.toList [] (by simp) c hc
  intro l
  induction l with
  | nil =>
    intro acc hacc c hc
    exact hacc c hc
  | cons x t ih =>
    intro acc hacc c hc
    simp only [List.foldl_cons] at hc
    by_cases hx : x = '/' ∨ x = '\\'
    · rw [if_pos hx] at hc
      exact ih [] (by simp) c hc
    · rw [if_neg hx] at hc
      refine ih _ ?_ c hc
      intro c2 hc2
      rcases List.mem_append.1 hc2 with h2 | h2
      · exact hacc c2 h2
      · rw [List.mem_singleton.1 h2]
        exact hx

theorem group_digits (g : GRE) (hg : noStarG g = true) (s : List Char)
    (caps : List String) (h : reFind g s = some caps) (dIdx : Nat)
    (hdi : dIdx < numGroups g)
    (hpred : (groupPreds g).getD dIdx (fun _ => false) = Char.isDigit)
    (hmin : 1 ≤ (groupMins g).getD dIdx 0) :
    (caps.getD dIdx "").toList ≠ [] ∧
    (∀ c ∈ (caps.getD dIdx "").toList, c.isDigit = true) ∧
    SubSeg (caps.getD dIdx "").toList s := by
  obtain ⟨hlen, hk⟩ := reFind_group_facts g hg s caps h
  obtain ⟨hsubD, hpredD, hminD⟩ := hk dIdx hdi
  rw [hpred] at hpredD
  refine ⟨?_, hpredD, hsubD⟩
  intro hnil
  rw [hnil] at hminD
  simp only [List.length_nil] at hminD
  omega

theorem group_sub (g : GRE) (hg : noStarG g = true) (s : List Char)
    (caps : List String) (h : reFind g s = some caps) (k : Nat)
    (hk : k < numGroups g) :
    SubSeg (caps.getD k "").toList s :=
  ((reFind_group_facts g hg s caps h).2 k hk).1

theorem toDouble_exact (n : Nat) (h : n ≤ 2 ^ 53) : toDouble n = n := by
  unfold toDouble
  rw [if_pos h]

theorem jsParseIntNat_exact {l : List Char} (h : natOfDigits l ≤ 2 ^ 53) :
    jsParseIntNat l = natOfDigits l := by
  have h2 : ¬ (2 ^ 1024 ≤ toDouble (natOfDigits l)) := by
    rw [toDouble_exact _ h]
    intro hc
    exact absurd (Nat.le_trans hc h) (by decide)
  show (if 2 ^ 1024 ≤ toDouble (natOfDigits l) then 2 ^ 1024 else toDouble (natOfDigits l)) = natOfDigits l
  rw [if_neg h2, toDouble_exact _ h]

/-- C5, counterexample to the claim as stated: on the bare Ruby line
`a.rb:9007199254740993` the integer present in the input is
`9007199254740993 = 2^53 + 1`, but the frame records line number
`9007199254740992` — JS `parseInt` rounds the digit string to the
nearest representable double, so the recorded value is not the exact
integer present in the line. -/
theorem C5_counterexample :
    parseLine "a.rb:9007199254740993" =
      some { filename := "a.rb", function := "<unknown>", line := 9007199254740992, column := none } ∧
    (9007199254740992 : Nat) ≠ 9007199254740993 := by
  exact ⟨by decide, by decide⟩

/-- C5, corrected: a recognized line is matched by the first recognizer
in the dispatch order that matches it, and the appended frame is built
from that very match: the filename is the final path segment of the
match's path capture — a substring of the line, free of `/` and `\`
separators — and the frame's line number is the value `parseInt`
returns on the match's nonempty all-digit line-number capture, itself
a substring of the line.  That value is the exact integer written
there whenever it does not exceed `2^53`; above that `parseInt` rounds
to the nearest double.  A column arises only from the bracketed
JavaScript recognizer and is likewise `parseInt` of that match's
column capture. -/
theorem C5_parse_line_extraction (line : String) (f : StackTraceFrame)
    (h : parseLine line = some f) :
    ∃ i, i < 7 ∧ ∃ caps : List String,
      reFind (tracePatterns.getD i (GRE.re RE.eps)) line.toList = some caps ∧
      (∀ j, j < i → reFind (tracePatterns.getD j (GRE.re RE.eps)) line.toList = none) ∧
      frameOfMatch i caps = some f ∧
      SubSeg ((caps.getD (pathIdxOf i) "").toList) line.toList ∧
      f.filename = lastSegment (caps.getD (pathIdxOf i) "") ∧
      (∀ c ∈ f.filename.toList, ¬(c = '/' ∨ c = '\\')) ∧
      (caps.getD (lineIdxOf i) "").toList ≠ [] ∧
      (∀ c ∈ (caps.getD (lineIdxOf i) "").toList, c.isDigit = true) ∧
      SubSeg ((caps.getD (lineIdxOf i) "").toList) line.toList ∧
      f.line = jsParseIntNat ((caps.getD (lineIdxOf i) "").toList) ∧
      (natOfDigits ((caps.getD (lineIdxOf i) "").toList) ≤ 2 ^ 53 →
        f.line = natOfDigits ((caps.getD (lineIdxOf i) "").toList)) ∧
      ∀ col, f.column = some col →
        i = 3 ∧ (caps.getD 3 "").toList ≠ [] ∧
        (∀ c ∈ (caps.getD 3 "").toList, c.isDigit = true) ∧
        SubSeg ((caps.getD 3 "").toList) line.toList ∧
        col = jsParseIntNat ((caps.getD 3 "").toList) ∧
        (natOfDigits ((caps.getD 3 "").toList) ≤ 2 ^ 53 →
          col = natOfDigits ((caps.getD 3 "").toList)) := by
  simp only [parseLine] at h
  cases h1 : reFind pat1 line.toList with
  | some caps =>
    rw [h1] at h
    rcases caps with _ | ⟨file, caps⟩
    · simp at h
    rcases caps with _ | ⟨num, caps⟩
    · simp at h
    rcases caps with _ | ⟨fn, rest⟩
    · simp at h
    dsimp only at h
    rw [Option.some.injEq] at h
    subst h
    obtain ⟨hne, hdig, hsubD⟩ := group_digits pat1 (by rfl) line.toList _ h1 1 (by decide) rfl (by decide)
    exact ⟨0, by omega, file :: num :: fn :: rest, h1, fun j hj => absurd hj (by omega), rfl,
      group_sub pat1 (by rfl) line.toList _ h1 0 (by decide), rfl, lastSegment_noSep _,
      hne, hdig, hsubD, rfl, fun hs => jsParseIntNat_exact hs, fun c hc => by cases hc⟩
  | none =>
  rw [h1] at h
  dsimp only at h
  cases h2 : reFind pat2 line.toList with
  | some caps =>
    rw [h2] at h
    rcases caps with _ | ⟨file, caps⟩
    · simp at h
    rcases caps with _ | ⟨num, caps⟩
    · simp at h
    rcases caps with _ | ⟨fn, rest⟩
    · simp at h
    dsimp only at h
    rw [Option.some.injEq] at h
    subst h
    obtain ⟨hne, hdig, hsubD⟩ := group_digits pat2 (by rfl) line.toList _ h2 1 (by decide) rfl (by decide)
    refine ⟨1, by omega, file :: num :: fn :: rest, h2, ?_, rfl,
      group_sub pat2 (by rfl) line.toList _ h2 0 (by decide), rfl, lastSegment_noSep _,
      hne, hdig, hsubD, rfl, fun hs => jsParseIntNat_exact hs, fun c hc => by cases hc⟩
    · intro j hj
      interval_cases j
      · exact h1
  | none =>
  rw [h2] at h
  dsimp only at h
  cases h3 : reFind pat3 line.toList with
  | some caps =>
    rw [h3] at h
    rcases caps with _ | ⟨file, caps⟩
    · simp at h
    rcases caps with _ | ⟨num, rest⟩
    · simp at h
    dsimp only at h
    rw [Option.some.injEq] at h
    subst h
    obtain ⟨hne, hdig, hsubD⟩ := group_digits pat3 (by rfl) line.toList _ h3 1 (by decide) rfl (by decide)
    refine ⟨2, by omega, file :: num :: rest, h3, ?_, rfl,
      group_sub pat3 (by rfl) line.toList _ h3 0 (by decide), rfl, lastSegment_noSep _,
      hne, hdig, hsubD, rfl, fun hs => jsParseIntNat_exact hs, fun c hc => by cases hc⟩
    · intro j hj
      interval_cases j
      · exact h1
      · exact h2
  | none =>
  rw [h3] at h
  dsimp only at h
  cases h4 : reFind pat4 line.toList with
  | some caps =>
    rw [h4] at h
    rcases caps with _ | ⟨fn, caps⟩
    · simp at h
    rcases caps with _ | ⟨file, caps⟩
    · simp at h
    rcases caps with _ | ⟨num, caps⟩
    · simp at h
    rcases caps with _ | ⟨col, rest⟩
    · simp at h
    dsimp only at h
    rw [Option.some.injEq] at h
    subst h
    obtain ⟨hne, hdig, hsubD⟩ := group_digits pat4 (by rfl) line.toList _ h4 2 (by decide) rfl (by decide)
    obtain ⟨hneC, hdigC, hsubC⟩ := group_digits pat4 (by rfl) line.toList _ h4 3 (by decide) rfl (by decide)
    refine ⟨3, by omega, fn :: file :: num :: col :: rest, h4, ?_, rfl,
      group_sub pat4 (by rfl) line.toList _ h4 1 (by decide), rfl, lastSegment_noSep _,
      hne, hdig, hsubD, rfl, fun hs => jsParseIntNat_exact hs, ?_⟩
    · intro j hj
      interval_cases j
      · exact h1
      · exact h2
      · exact h3
    · intro c hc
      rw [Option.some.injEq] at hc
      exact ⟨rfl, hneC, hdigC, hsubC, hc.symm, fun hs => hc.symm.trans (jsParseIntNat_exact hs)⟩
  | none =>
  rw [h4] at h
  dsimp only at h
  cases h5 : reFind pat5 line.toList with
  | some caps =>
    rw [h5] at h
    rcases caps with _ | ⟨file, caps⟩
    · simp at h
    rcases caps with _ | ⟨num, caps⟩
    · simp at h
    rcases caps with _ | ⟨fn, rest⟩
    · simp at h
    dsimp only at h
    rw [Option.some.injEq] at h
    subst h
    obtain ⟨hne, hdig, hsubD⟩ := group_digits pat5 (by rfl) line.toList _ h5 1 (by decide) rfl (by decide)
    refine ⟨4, by omega, file :: num :: fn :: rest, h5, ?_, rfl,
      group_sub pat5 (by rfl) line.toList _ h5 0 (by decide), rfl, lastSegment_noSep _,
      hne, hdig, hsubD, rfl, fun hs => jsParseIntNat_exact hs, fun c hc => by cases hc⟩
    · intro j hj
      interval_cases j
      · exact h1
      · exact h2
      · exact h3
      · exact h4
  | none =>
  rw [h5] at h
  dsimp only at h
  cases h6 : reFind pat6 line.toList with
  | some caps =>
    rw [h6] at h
    rcases caps with _ | ⟨fn, caps⟩
    · simp at h
    rcases caps with _ | ⟨file, caps⟩
    · simp at h
    rcases caps with _ | ⟨num, rest⟩
    · simp at h
    dsimp only at h
    rw [Option.some.injEq] at h
    subst h
    obtain ⟨hne, hdig, hsubD⟩ := group_digits pat6 (by rfl) line.toList _ h6 2 (by decide) rfl (by decide)
    refine ⟨5, by omega, fn :: file :: num :: rest, h6, ?_, rfl,
      group_sub pat6 (by rfl) line.toList _ h6 1 (by decide), rfl, lastSegment_noSep _,
      hne, hdig, hsubD, rfl, fun hs => jsParseIntNat_exact hs, fun c hc => by cases hc⟩
    · intro j hj
      interval_cases j
      · exact h1
      · exact h2
      · exact h3
      · exact h4
      · exact h5
  | none =>
  rw [h6] at h
  dsimp only at h
  cases h7 : reFind pat7 line.toList with
  | some caps =>
    rw [h7] at h
    rcases caps with _ | ⟨fn, caps⟩
    · simp at h
    rcases caps with _ | ⟨file, caps⟩
    · simp at h
    rcases caps with _ | ⟨num, rest⟩
    · simp at h
    dsimp only at h
    rw [Option.some.injEq] at h
    subst h
    obtain ⟨hne, hdig, hsubD⟩ := group_digits pat7 (by rfl) line.toList _ h7 2 (by decide) rfl (by decide)
    refine ⟨6, by omega, fn :: file :: num :: rest, h7, ?_, rfl,
      group_sub pat7 (by rfl) line.toList _ h7 1 (by decide), rfl, lastSegment_noSep _,
      hne, hdig, hsubD, rfl, fun hs => jsParseIntNat_exact hs, fun c hc => by cases hc⟩
    · intro j hj
      interval_cases j
      · exact h1
      · exact h2
      · exact h3
      · exact h4
      · exact h5
      · exact h6
  | none =>
  rw [h7] at h
  dsimp only at h
  cases h

/-- C5 witness: the bracketed call-site line `"at foo (src/a.js:10:5)"`
is matched by one of the seven recognizers and the frame
`(a.js, foo, 10, col 5)` is built from that match's captures. -/
theorem C5_wit :
    ∃ i, i < 7 ∧ ∃ caps : List String,
      reFind (tracePatterns.getD i (GRE.re RE.eps)) ("at foo (src/a.js:10:5)").toList = some caps ∧
      frameOfMatch i caps = some { filename := "a.js", function := "foo", line := 10, column := some 5 } := by
  obtain ⟨i, hi, caps, hfind, -, hframe, -⟩ :=
    C5_parse_line_extraction "at foo (src/a.js:10:5)"
      { filename := "a.js", function := "foo", line := 10, column := some 5 } (by decide)
  exact ⟨i, hi, caps, hfind, hframe⟩

/-! ### C6 -/

/-- C6, counterexample to the claim as stated: a bare frame with a
`.ts` extension (an extension the claim lists as covered) is not
recognized by any pattern — only `.rb` bare frames are.  The parse of
`"src/app.ts:42"` yields no frame at all, where the claim demands a
frame with filename `app.ts`, line 42 and the unknown-function
sentinel. -/
theorem C6_counterexample : parseStackTrace "src/app.ts:42" = [] := by
  decide

theorem allM_cat_eq (a b : RE) (s : List Char) :
    allM (.cat a b) s =
      (allM a s).flatMap fun pr => (allM b pr.2).map fun qr => (pr.1 ++ qr.1, qr.2) := rfl

theorem allM_plusG_eq (p : Char → Bool) (s : List Char) :
    allM (.plusG p) s = (natsDown (runLen p s)).map fun n => (([] : List String), s.drop n) := rfl

theorem rb3_nil : allM (lits ".rb") [] = [] := rfl

theorem rb3_ok (rest : List Char) :
    allM (lits ".rb") ('.' :: 'r' :: 'b' :: rest) = [(([] : List String), rest)] := rfl

theorem rb3_cons_ne (c : Char) (t : List Char) (h : (c == '.') = false) :
    allM (lits ".rb") (c :: t) = [] := by
  have hl : lits ".rb" =
      .cat (.ch fun x => x == '.') (.cat (.ch fun x => x == 'r') (.cat (.ch fun x => x == 'b') .eps)) := rfl
  rw [hl, allM_cat_eq]
  have : allM (.ch fun x => x == '.') (c :: t) = [] := by
    show (if (c == '.') then [(([] : List String), t)] else []) = []
    rw [h]
    simp
  rw [this]
  rfl

theorem runLen_all (p : Char → Bool) (l : List Char) (h : ∀ c ∈ l, p c = true) :
    runLen p l = l.length := by
  induction l with
  | nil => rfl
  | cons c t ih =>
    simp only [runLen, List.length_cons]
    rw [if_pos (h c (List.mem_cons_self c t)), ih fun c hc => h c (List.mem_cons_of_mem _ hc)]

theorem natsDown_add (a b : Nat) :
    natsDown (a + b) = (natsDown a).map (· + b) ++ natsDown b := by
  induction a with
  | zero => simp [natsDown]
  | succ a ih =>
    have h1 : a + 1 + b = (a + b) + 1 := by omega
    rw [h1]
    simp only [natsDown, List.map_cons, List.cons_append]
    rw [ih]
    congr 1
    omega

theorem natsDown_pos {k : Nat} (h : 0 < k) : natsDown k = k :: natsDown (k - 1) := by
  cases k with
  | zero => omega
  | succ k => rfl

theorem digit_notNl {c : Char} (h : c.isDigit = true) : notNl c = true := by
  by_cases h1 : c = '\n'
  · subst h1
    exact absurd h (by decide)
  by_cases h2 : c = '\r'
  · subst h2
    exact absurd h (by decide)
  by_cases h3 : c = '\u2028'
  · subst h3
    exact absurd h (by decide)
  by_cases h4 : c = '\u2029'
  · subst h4
    exact absurd h (by decide)
  simp [notNl, h1, h2, h3, h4]

theorem digit_ne_dot {c : Char} (h : c.isDigit = true) : (c == '.') = false := by
  by_cases hc : c = '.'
  · subst hc
    exact absurd h (by decide)
  · simp [hc]

theorem rb3_after_drop (q d : List Char) (hdd : ∀ c ∈ d, c.isDigit = true) (m : Nat)
    (hm : 1 ≤ m) :
    allM (lits ".rb") ((q ++ '.' :: 'r' :: 'b' :: ':' :: d).drop (m + q.length)) = [] := by
  rw [Nat.add_comm, List.drop_append]
  match m, hm with
  | 1, _ => exact rb3_cons_ne 'r' _ (by decide)
  | 2, _ => exact rb3_cons_ne 'b' _ (by decide)
  | 3, _ => exact rb3_cons_ne ':' _ (by decide)
  | (m + 4), _ =>
    have hdr : ('.' :: 'r' :: 'b' :: ':' :: d).drop (m + 4) = d.drop m := by
      simp [List.drop_succ_cons]
    rw [hdr]
    cases hc : d.drop m with
    | nil => exact rb3_nil
    | cons c t =>
      have hcd : c ∈ d := List.mem_of_mem_drop (by rw [hc]; exact List.mem_cons_self c t)
      exact rb3_cons_ne c t (digit_ne_dot (hdd c hcd))


theorem inner_head (q d : List Char) (hq : q ≠ [])
    (hqn : ∀ c ∈ q, notNl c = true)
    (hdd : ∀ c ∈ d, c.isDigit = true) :
    ∃ junk, allM (.cat (.plusG notNl) (lits ".rb")) (q ++ '.' :: 'r' :: 'b' :: ':' :: d) =
      ((([] : List String), ':' :: d) :: junk : List (List String × List Char)) := by
  have hall : ∀ c ∈ q ++ '.' :: 'r' :: 'b' :: ':' :: d, notNl c = true := by
    intro c hc
    rcases List.mem_append.1 hc with h | h
    · exact hqn c h
    · simp only [List.mem_cons] at h
      rcases h with rfl | rfl | rfl | rfl | h
      · decide
      · decide
      · decide
      · decide
      · exact digit_notNl (hdd c h)
  have hrun : runLen notNl (q ++ '.' :: 'r' :: 'b' :: ':' :: d) =
      (q ++ '.' :: 'r' :: 'b' :: ':' :: d).length := runLen_all _ _ hall
  have hlen : (q ++ '.' :: 'r' :: 'b' :: ':' :: d).length = (4 + d.length) + q.length := by
    simp [List.length_append]
    omega
  rw [allM_cat_eq, allM_plusG_eq, hrun, hlen, natsDown_add, List.map_append,
    List.flatMap_append, List.map_map, List.flatMap_map, List.flatMap_map]
  simp only [Function.comp]
  have hfirst : ((natsDown (4 + d.length)).flatMap fun a =>
      List.map (fun qr => (([] : List String) ++ qr.1, qr.2))
        (allM (lits ".rb") (List.drop (a + q.length) (q ++ '.' :: 'r' :: 'b' :: ':' :: d)))) = [] := by
    rw [List.flatMap_eq_nil_iff]
    intro m hm
    rw [mem_natsDown] at hm
    rw [rb3_after_drop q d hdd m hm.1]
    rfl
  rw [hfirst, List.nil_append, natsDown_pos (List.length_pos.2 hq), List.flatMap_cons,
    List.drop_left, rb3_ok]
  exact ⟨_, rfl⟩

theorem allG_gcat_eq (a b : GRE) (s : List Char) :
    allG (.gcat a b) s =
      (allG a s).flatMap fun pr => (allG b pr.2).map fun qr => (pr.1 ++ qr.1, qr.2) := rfl

theorem allG_grp_eq (r : RE) (s : List Char) : allG (.grp r) s = grpAllM r s := rfl

theorem allG_re_eq (r : RE) (s : List Char) : allG (.re r) s = allM r s := rfl

theorem pat3_head (q d : List Char) (hq : q ≠ [])
    (hqn : ∀ c ∈ q, notNl c = true)
    (hd : d ≠ []) (hdd : ∀ c ∈ d, c.isDigit = true) :
    ∃ junk, allG pat3 (q ++ '.' :: 'r' :: 'b' :: ':' :: d) =
      ([String.mk (q ++ ['.', 'r', 'b']), String.mk d], ([] : List Char)) :: junk := by
  obtain ⟨junk1, hj1⟩ := inner_head q d hq hqn hdd
  have hpat3 : pat3 = GRE.gcat (.grp (.cat (.plusG notNl) (lits ".rb")))
      (GRE.gcat (.re (.ch fun x => x == ':'))
        (GRE.gcat (.grp (.plusG Char.isDigit)) (.re .eps))) := rfl
  have htake : (q ++ '.' :: 'r' :: 'b' :: ':' :: d).take
      ((q ++ '.' :: 'r' :: 'b' :: ':' :: d).length - (':' :: d).length) =
      q ++ ['.', 'r', 'b'] := by
    have h2 : (q ++ '.' :: 'r' :: 'b' :: ':' :: d).length - (':' :: d).length =
        (q ++ ['.', 'r', 'b']).length := by
      simp only [List.length_append, List.length_cons]
      simp
      omega
    have h1 : (q ++ '.' :: 'r' :: 'b' :: ':' :: d) = (q ++ ['.', 'r', 'b']) ++ ':' :: d := by
      simp
    rw [h2, h1, List.take_left]
  rw [hpat3, allG_gcat_eq, allG_grp_eq, grpAllM, hj1, List.map_cons, List.flatMap_cons]
  dsimp only
  rw [htake]
  have hT : ∃ junk2, allG ((GRE.re (RE.ch fun x => x == ':')).gcat
      ((GRE.grp (RE.plusG Char.isDigit)).gcat (GRE.re RE.eps))) (':' :: d) =
      ([String.mk d], ([] : List Char)) :: junk2 := by
    rw [allG_gcat_eq, allG_re_eq,
      show allM (RE.ch fun x => x == ':') (':' :: d) = [(([] : List String), d)] from rfl,
      List.flatMap_cons, allG_gcat_eq, allG_grp_eq, grpAllM, allM_plusG_eq,
      runLen_all Char.isDigit d hdd, natsDown_pos (List.length_pos.2 hd), List.map_cons,
      List.map_cons, List.flatMap_cons]
    dsimp only
    rw [List.drop_length]
    dsimp only [List.length_nil, Nat.sub_zero]
    rw [List.take_length]
    exact ⟨_, rfl⟩
  obtain ⟨junk2, hj2⟩ := hT
  rw [hj2, List.map_cons]
  exact ⟨_, rfl⟩

/-- C6, amended: the bare-frame recognizer covers only the `.rb`
extension.  For every line of the form `<path>.rb:<line>` — path
nonempty and free of ECMAScript LineTerminators (which JS `.` cannot
match), line a nonempty digit string — that matches neither of the two
more specific Ruby recognizers, parse yields a frame whose filename is
the path's final segment, whose line is the number `parseInt` returns
for the digit string (the exact integer whenever it is at most
`2^53`), and whose function is the `<unknown>` sentinel.  Bare frames
in the other listed extensions produce no frame. -/
theorem C6_amended_rb (q d : List Char) (hq : q ≠ [])
    (hqn : ∀ c ∈ q, notNl c = true)
    (hd : d ≠ []) (hdd : ∀ c ∈ d, c.isDigit = true)
    (h1 : reFind pat1 (q ++ '.' :: 'r' :: 'b' :: ':' :: d) = none)
    (h2 : reFind pat2 (q ++ '.' :: 'r' :: 'b' :: ':' :: d) = none) :
    parseLine (String.mk (q ++ '.' :: 'r' :: 'b' :: ':' :: d)) =
      some { filename := lastSegment (String.mk (q ++ ['.', 'r', 'b'])), function := "<unknown>", line := jsParseIntNat d, column := none } ∧
      (natOfDigits d ≤ 2 ^ 53 → jsParseIntNat d = natOfDigits d) := by
  refine ⟨?_, fun hs => jsParseIntNat_exact hs⟩
  obtain ⟨junk, hhead⟩ := pat3_head q d hq hqn hd hdd
  obtain ⟨qc, qt, rfl⟩ : ∃ qc qt, q = qc :: qt := by
    cases q with
    | nil => exact absurd rfl hq
    | cons a b => exact ⟨a, b, rfl⟩
  rw [List.cons_append] at hhead h1 h2
  have hfind : reFindFrom pat3 (qc :: (qt ++ '.' :: 'r' :: 'b' :: ':' :: d)) =
      some ([String.mk ((qc :: qt) ++ ['.', 'r', 'b']), String.mk d], []) := by
    simp only [reFindFrom, hhead, List.head?_cons]
  have hfind2 : reFind pat3 (qc :: (qt ++ '.' :: 'r' :: 'b' :: ':' :: d)) =
      some [String.mk ((qc :: qt) ++ ['.', 'r', 'b']), String.mk d] := by
    rw [reFind, hfind]
    rfl
  simp only [parseLine, toList_mk, List.cons_append]
  rw [h1, h2, hfind2]
  rfl


/-- C6 witness: `"foo.rb:12"` parses to
`{filename := "foo.rb", function := "<unknown>", line := 12}`, and 12
is the exact digit value. -/
theorem C6_wit :
    parseLine (String.mk (['f', 'o', 'o'] ++ '.' :: 'r' :: 'b' :: ':' :: ['1', '2'])) =
      some { filename := lastSegment (String.mk (['f', 'o', 'o'] ++ ['.', 'r', 'b'])), function := "<unknown>", line := jsParseIntNat ['1', '2'], column := none } ∧
      (natOfDigits ['1', '2'] ≤ 2 ^ 53 → jsParseIntNat ['1', '2'] = natOfDigits ['1', '2']) :=
  C6_amended_rb ['f', 'o', 'o'] ['1', '2'] (by decide) (by decide) (by decide) (by decide)
    (by decide) (by decide)

end CodebaseAnalyzer
